import Mathlib

/-!
Verification development for the RoadQuilla transit-graph program.

The Python source (graph.py, app.py) is shallowly embedded below:

* Python `dict`s become association lists (`List (κ × α)`) with first-match
  lookup (`dictGet`) and in-place update (`dictSet`), matching insertion-order
  semantics of `dict`.
* Python floats become `ℚ`; `float("inf")` becomes `none` in `Option ℚ`.
* Python string comparison (code-point lexicographic) is `pyStrLt`.
* Code that can raise (`KeyError`, `ValueError` from `int(...)`) returns
  `Option`/`Except`; the unbounded `while` loops of Dijkstra and path
  reconstruction take explicit fuel, with a distinguished fuel-out result.
* The transcendental `haversine` (floating-point sin/cos/atan2) has no exact
  executable counterpart; the whole expression `haversine(...)` is abstracted
  as a parameter `hav : Coord → Coord → ℚ` (metres), and the code's `/ 1000`
  conversion to km is kept explicit.  No claim depends on its values.
-/

abbrev Coord : Type := ℚ × ℚ

/-- First-match lookup in an association list (Python `d[k]` / `k in d`). -/
def dictGet {κ α : Type} [DecidableEq κ] : List (κ × α) → κ → Option α
  | [], _ => none
  | (k, v) :: rest, k' => if k = k' then some v else dictGet rest k'

/-- In-place update (Python `d[k] = v`): overwrite the first binding of `k`,
or append a new binding at the end, as Python dicts do. -/
def dictSet {κ α : Type} [DecidableEq κ] : List (κ × α) → κ → α → List (κ × α)
  | [], k, v => [(k, v)]
  | (k', v') :: rest, k, v =>
    if k' = k then (k, v) :: rest else (k', v') :: dictSet rest k v

/-- Python `d.setdefault(k, v)`: keep an existing binding, else append. -/
def dictSetdefault {κ α : Type} [DecidableEq κ] (l : List (κ × α)) (k : κ) (v : α) :
    List (κ × α) :=
  match dictGet l k with
  | some _ => l
  | none => l ++ [(k, v)]

/-- Two-level lookup `m[a][b]` (fails if either key is absent). -/
def dictGet2 {κ α : Type} [DecidableEq κ] (m : List (κ × List (κ × α))) (a b : κ) :
    Option α :=
  match dictGet m a with
  | none => none
  | some adj => dictGet adj b

/-- Python `<` on strings: lexicographic comparison of Unicode code points. -/
def pyStrLtAux : List Char → List Char → Bool
  | [], [] => false
  | [], _ :: _ => true
  | _ :: _, [] => false
  | a :: as, b :: bs =>
    if a.toNat < b.toNat then true
    else if b.toNat < a.toNat then false
    else pyStrLtAux as bs

def pyStrLt (s t : String) : Bool := pyStrLtAux s.data t.data

/-- Python `str.strip()`: drop whitespace characters from both ends. -/
def pyStrip (s : String) : String :=
  ⟨((s.data.dropWhile Char.isWhitespace).reverse.dropWhile Char.isWhitespace).reverse⟩

/-- The per-edge record stored in `self.aristas[a][b]`: `{"dist": .., "time": ..}`. -/
structure Arista where
  dist : ℚ
  time : Option ℚ
deriving DecidableEq

/-- The `Graph` object's three dictionaries:
`nodos : nombre → {lat, lon}`, `coords : nombre → (lat, lon)`,
`aristas : nodo → (destino → {dist, time})`. -/
structure Graph where
  nodos : List (String × Coord)
  coords : List (String × Coord)
  aristas : List (String × List (String × Arista))
deriving DecidableEq

def Graph.empty : Graph := { nodos := [], coords := [], aristas := [] }

/-- One CSV row of the stations file, after field extraction: the raw name and
the result of `float(row["Coordenada Y"]), float(row["Coordenada X"])`
(`none` when either parse raised, i.e. the `except: continue` path). -/
structure FilaEstacion where
  nombre : String
  coords : Option Coord
deriving DecidableEq

/-- One CSV row of the routes file; `seq` is the result of
`int(row["Secuencia parada"])`, `none` when the parse raises `ValueError`. -/
structure FilaRuta where
  ruta : String
  parada : String
  seq : Option Int
deriving DecidableEq

/-- One JSON cache entry `{"dist": .., "time_min": ..}`.  A `none` field is a
missing key (per the interface, `dist` is a number when present and
`time_min` may also be `null`, which `datos.get("time_min")` conflates with a
missing key). -/
structure DatosCache where
  dist : Option ℚ
  time_min : Option ℚ
deriving DecidableEq

/-- The JSON cache: keys are the `f"{lat1},{lon1}|{lat2},{lon2}"` strings,
which determine (and are determined by) the ordered pair of coordinates. -/
abbrev Cache : Type := List ((Coord × Coord) × DatosCache)

/-- Body of the `cargar_estaciones` loop for one CSV row: skip on
coordinate-parse failure, else insert into `nodos`, `coords` and
`self.aristas.setdefault(nombre, {})`. -/
def registrar_estacion (g : Graph) (fila : FilaEstacion) : Graph :=
  match fila.coords with
  | none => g
  | some c =>
    let nombre := pyStrip fila.nombre
    { nodos := dictSet g.nodos nombre c
      coords := dictSet g.coords nombre c
      aristas := dictSetdefault g.aristas nombre [] }

/-- `Graph.cargar_estaciones`. -/
def cargar_estaciones (g : Graph) (filas : List FilaEstacion) : Graph :=
  filas.foldl registrar_estacion g

/-- `Graph.agregar_arista`: look up both coordinates, compute
`haversine(...) / 1000`, store the same record under `aristas[a][b]` and
`aristas[b][a]`.  `none` models the `KeyError` Python would raise if a key
were absent (the only caller guards `a in self.coords and b in self.coords`,
and station loading keeps `coords` and `aristas` keys in sync). -/
def agregar_arista (hav : Coord → Coord → ℚ) (g : Graph) (a b : String) : Option Graph :=
  match dictGet g.coords a, dictGet g.coords b with
  | some c1, some c2 =>
    let d : ℚ := hav c1 c2 / 1000
    match dictGet g.aristas a with
    | none => none
    | some adjA =>
      let ar1 := dictSet g.aristas a (dictSet adjA b { dist := d, time := none })
      match dictGet ar1 b with
      | none => none
      | some adjB =>
        some { g with aristas := dictSet ar1 b (dictSet adjB a { dist := d, time := none }) }
  | _, _ => none

/-- Comparison used by `lista.sort()` on `(seq, parada)` tuples: Python tuple
order, i.e. by `seq` first and by the station-name string on ties. -/
def insLe (x y : Int × String) : Bool :=
  if x.1 < y.1 then true
  else if y.1 < x.1 then false
  else if pyStrLt x.2 y.2 then true
  else if pyStrLt y.2 x.2 then false
  else true

def insertar (x : Int × String) : List (Int × String) → List (Int × String)
  | [] => [x]
  | y :: ys => if insLe x y then x :: y :: ys else y :: insertar x ys

/-- The effect of `lista.sort()`: the unique permutation of `lista` sorted
under Python tuple order (insertion sort; uniqueness is proved below). -/
def pysort (l : List (Int × String)) : List (Int × String) := l.foldr insertar []

/-- `rutas_por_nombre.setdefault(ruta, []).append((seq, parada))`. -/
def agregar_parada (m : List (String × List (Int × String))) (k : String)
    (v : Int × String) : List (String × List (Int × String)) :=
  match dictGet m k with
  | some l => dictSet m k (l ++ [v])
  | none => m ++ [(k, [v])]

/-- First loop of `Graph.cargar_rutas`: group `(seq, parada)` by route name.
`int(row["Secuencia parada"])` is not guarded by any try/except, so an
unparseable sequence number aborts the whole load (`none`). -/
def agrupar_paso (acc : Option (List (String × List (Int × String)))) (fila : FilaRuta) :
    Option (List (String × List (Int × String))) :=
  match acc with
  | none => none
  | some m =>
    match fila.seq with
    | none => none
    | some s => some (agregar_parada m (pyStrip fila.ruta) (s, pyStrip fila.parada))

def agrupar (filas : List FilaRuta) : Option (List (String × List (Int × String))) :=
  filas.foldl agrupar_paso (some [])

/-- Second loop body of `Graph.cargar_rutas` after `lista.sort()`: connect each
consecutive pair whose two endpoints are both registered in `coords`. -/
def conectar_consecutivas (hav : Coord → Coord → ℚ) (g : Graph) :
    List (Int × String) → Option Graph
  | x :: y :: rest =>
    match (if (dictGet g.coords x.2).isSome ∧ (dictGet g.coords y.2).isSome then
             agregar_arista hav g x.2 y.2
           else some g) with
    | none => none
    | some g' => conectar_consecutivas hav g' (y :: rest)
  | _ => some g

/-- Processing of a single route: `lista.sort()` then connect consecutive. -/
def procesar_ruta (hav : Coord → Coord → ℚ) (g : Graph) (lista : List (Int × String)) :
    Option Graph :=
  conectar_consecutivas hav g (pysort lista)

/-- One step of the `for ruta, lista in rutas_por_nombre.items()` loop,
short-circuiting a previous uncaught `KeyError`. -/
def construir_paso (hav : Coord → Coord → ℚ) (og : Option Graph)
    (p : String × List (Int × String)) : Option Graph :=
  match og with
  | none => none
  | some g' => procesar_ruta hav g' p.2

/-- `Graph.cargar_rutas`.  `.error ()` models an uncaught exception. -/
def cargar_rutas (hav : Coord → Coord → ℚ) (g : Graph) (filas : List FilaRuta) :
    Except Unit Graph :=
  match agrupar filas with
  | none => .error ()
  | some grupos =>
    match grupos.foldl (construir_paso hav) (some g) with
    | none => .error ()
    | some g' => .ok g'

/-- The `k1 in cache` / `k2 in cache` double lookup of `cargar_cache_aristas`:
try the `(c1,c2)` key first, then the reversed key. -/
def buscar_datos (cache : Cache) (c1 c2 : Coord) : Option DatosCache :=
  match dictGet cache (c1, c2) with
  | some d => some d
  | none => dictGet cache (c2, c1)

/-- The in-place edge update once `datos` has been found:
`dist` is replaced by `datos.get("dist", current)`, and `time` only by a
present, strictly positive `time_min`.  (An entry with neither key is falsy in
Python and skipped there; applying this update with such an entry is the
identity, so the translation is unchanged by the `if datos:` test.) -/
def actualizar_arista (datos : DatosCache) (e : Arista) : Arista :=
  let e1 : Arista := { e with dist := datos.dist.getD e.dist }
  match datos.time_min with
  | some t => if 0 < t then { e1 with time := some t } else e1
  | none => e1

/-- Inner loop of `cargar_cache_aristas` over `self.aristas[a]`; looks up
`self.coords[a]` and `self.coords[b]` (a `KeyError` there, modelled as `none`,
aborts the pass). -/
def fusionar_adj (cache : Cache) (coords : List (String × Coord)) (a : String) :
    List (String × Arista) → Option (List (String × Arista))
  | [] => some []
  | (b, e) :: rest =>
    match dictGet coords a, dictGet coords b with
    | some c1, some c2 =>
      let e' := match buscar_datos cache c1 c2 with
                | none => e
                | some datos => actualizar_arista datos e
      (fusionar_adj cache coords a rest).map (fun rest' => (b, e') :: rest')
    | _, _ => none

/-- Outer loop of `cargar_cache_aristas` over all of `self.aristas`. -/
def fusionar (cache : Cache) (coords : List (String × Coord)) :
    List (String × List (String × Arista)) →
    Option (List (String × List (String × Arista)))
  | [] => some []
  | (a, adj) :: rest =>
    match fusionar_adj cache coords a adj, fusionar cache coords rest with
    | some adj', some rest' => some ((a, adj') :: rest')
    | _, _ => none

/-- `Graph.cargar_cache_aristas` (file already loaded into `cache`); mutates
edge records in place, never the key structure. -/
def cargar_cache_aristas (g : Graph) (cache : Cache) : Except Unit Graph :=
  match fusionar cache g.coords g.aristas with
  | none => .error ()
  | some l => .ok { g with aristas := l }

/-- Heap order on `(d, node)` entries: Python tuple order on `(float, str)`.
`heapq.heappop` returns the least entry (ties only between identical tuples). -/
def pqLe (x y : ℚ × String) : Bool :=
  if x.1 < y.1 then true
  else if y.1 < x.1 then false
  else if pyStrLt x.2 y.2 then true
  else if pyStrLt y.2 x.2 then false
  else true

/-- `heapq.heappop`: remove and return the least entry (first occurrence). -/
def popMin : List (ℚ × String) → Option ((ℚ × String) × List (ℚ × String))
  | [] => none
  | x :: xs =>
    match popMin xs with
    | none => some (x, [])
    | some (m, rest) => if pqLe x m then some (x, xs) else some (m, x :: rest)

/-- `dist[u] + w < dist[v]` with `float("inf")` as `none` (`inf < y` is always
false, `finite < inf` is always true). -/
def ltInf (x : ℚ) (y : Option ℚ) : Bool :=
  match y with
  | none => true
  | some b => decide (x < b)

/-- The neighbour loop `for v, datos in self.aristas[u].items(): ...`.
`dist[u]` is re-read on every iteration, as in the source; `none` models a
`KeyError` on `dist[v]` (or `dist[u]`). -/
def relajar (u : String) :
    List (String × Arista) → List (String × Option ℚ) →
    List (String × Option String) → List (ℚ × String) →
    Option (List (String × Option ℚ) × List (String × Option String) × List (ℚ × String))
  | [], dist, prev, pq => some (dist, prev, pq)
  | (v, e) :: rest, dist, prev, pq =>
    match dictGet dist u, dictGet dist v with
    | some du, some dv =>
      match du with
      | none => relajar u rest dist prev pq
      | some duq =>
        if ltInf (duq + e.dist) dv then
          relajar u rest (dictSet dist v (some (duq + e.dist)))
            (dictSet prev v (some u)) (pq ++ [(duq + e.dist, v)])
        else relajar u rest dist prev pq
    | _, _ => none

inductive SalidaBucle where
  | keyError : SalidaBucle
  | fuelOut : SalidaBucle
  | done : List (String × Option ℚ) → List (String × Option String) → SalidaBucle
deriving DecidableEq

/-- The `while pq:` loop of `ruta_mas_corta`, with explicit fuel.  The
destination test comes before the stale-entry test, as in the source. -/
def dijkstra_loop (adj : List (String × List (String × Arista))) (destino : String) :
    ℕ → List (ℚ × String) → List (String × Option ℚ) →
    List (String × Option String) → SalidaBucle
  | 0, pq, dist, prev =>
    match popMin pq with
    | none => .done dist prev
    | some _ => .fuelOut
  | fuel+1, pq, dist, prev =>
    match popMin pq with
    | none => .done dist prev
    | some ((d, u), pq') =>
      if u = destino then .done dist prev
      else
        match dictGet dist u with
        | none => .keyError
        | some du =>
          if some d = du then
            match dictGet adj u with
            | none => .keyError
            | some l =>
              match relajar u l dist prev pq' with
              | none => .keyError
              | some (dist', prev', pq'') => dijkstra_loop adj destino fuel pq'' dist' prev'
          else dijkstra_loop adj destino fuel pq' dist prev

inductive SalidaRecon where
  | keyError : SalidaRecon
  | fuelOut : SalidaRecon
  | done : List String → SalidaRecon
deriving DecidableEq

/-- The reconstruction loop `while x: camino.append(x); x = prev[x]`.
Python truthiness: both `None` and the empty string end the loop. -/
def reconstruir (prev : List (String × Option String)) :
    ℕ → Option String → SalidaRecon
  | _, none => .done []
  | 0, some x => if x = "" then .done [] else .fuelOut
  | fuel+1, some x =>
    if x = "" then .done []
    else
      match dictGet prev x with
      | none => .keyError
      | some x' =>
        match reconstruir prev fuel x' with
        | .done camino => .done (x :: camino)
        | r => r

inductive ResultadoRuta where
  | keyError : ResultadoRuta
  | fuelOut : ResultadoRuta
  | sinRuta : ResultadoRuta
  | ruta : List String → ℚ → ResultadoRuta
deriving DecidableEq

/-- `Graph.ruta_mas_corta(origen, destino)`.  `sinRuta` is the `(None, None)`
return; `ruta camino d` is `(camino, dist[destino])` after `camino.reverse()`;
`keyError` is an uncaught `KeyError`. -/
def ruta_mas_corta (g : Graph) (fuel : ℕ) (origen destino : String) : ResultadoRuta :=
  match dijkstra_loop g.aristas destino fuel [(0, origen)]
      (dictSet (g.aristas.map (fun p => (p.1, (none : Option ℚ)))) origen (some 0))
      (g.aristas.map (fun p => (p.1, (none : Option String)))) with
  | .keyError => .keyError
  | .fuelOut => .fuelOut
  | .done dist prev =>
    match dictGet dist destino with
    | none => .keyError
    | some none => .sinRuta
    | some (some dd) =>
      match reconstruir prev fuel (some destino) with
      | .keyError => .keyError
      | .fuelOut => .fuelOut
      | .done camino => .ruta camino.reverse dd

/- ----------------------------------------------------------------
Concrete instances used by closed theorems (inputs a user of the
program could supply; the literal graphs are certified below as the
exact outputs of the build pipeline on those inputs). -/

/-- A concrete stand-in for the abstracted `haversine`: constant 7000 m. -/
def hav7 : Coord → Coord → ℚ := fun _ _ => 7000

def filasEstA : List FilaEstacion := [{ nombre := "A", coords := some (0, 0) }]

def gA : Graph := cargar_estaciones Graph.empty filasEstA

def filasEstAB : List FilaEstacion :=
  [{ nombre := "A", coords := some (0, 0) }, { nombre := "B", coords := some (0, 1) }]

def gAB : Graph := cargar_estaciones Graph.empty filasEstAB

def filasEstABC : List FilaEstacion :=
  [{ nombre := "A", coords := some (0, 0) }, { nombre := "B", coords := some (0, 1) },
   { nombre := "C", coords := some (0, 2) }]

def gABC : Graph := cargar_estaciones Graph.empty filasEstABC

/-- Station rows containing an empty stop name (a blank CSV name field with
valid coordinates), plus a normal station. -/
def filasEstVac : List FilaEstacion :=
  [{ nombre := "", coords := some (0, 0) }, { nombre := "A", coords := some (1, 1) }]

/-- Route rows connecting the empty-named station to A. -/
def filasRutVac : List FilaRuta :=
  [{ ruta := "r", parada := "", seq := some 1 }, { ruta := "r", parada := "A", seq := some 2 }]

/-- The finished graph on stations "" and A (certified below). -/
def gVac : Graph :=
  { nodos := [("", (0, 0)), ("A", (1, 1))],
    coords := [("", (0, 0)), ("A", (1, 1))],
    aristas := [("", [("A", { dist := 7, time := none })]),
                ("A", [("", { dist := 7, time := none })])] }

/-- Route rows with a sequence-number tie: (1, B) appears before (1, A). -/
def filasRutC6 : List FilaRuta :=
  [{ ruta := "r", parada := "B", seq := some 1 }, { ruta := "r", parada := "A", seq := some 1 },
   { ruta := "r", parada := "C", seq := some 2 }]

/-- The graph the builder actually produces on `filasRutC6` (edges A-B, B-C). -/
def gC6 : Graph :=
  { nodos := [("A", (0, 0)), ("B", (0, 1)), ("C", (0, 2))],
    coords := [("A", (0, 0)), ("B", (0, 1)), ("C", (0, 2))],
    aristas := [("A", [("B", { dist := 7, time := none })]),
                ("B", [("A", { dist := 7, time := none }), ("C", { dist := 7, time := none })]),
                ("C", [("B", { dist := 7, time := none })])] }

/-- Route rows with an unparseable sequence number in the first record. -/
def filasRutMal : List FilaRuta :=
  [{ ruta := "r", parada := "A", seq := none }, { ruta := "r", parada := "B", seq := some 1 }]

/-- Route rows giving edges A-B, B-C (route r1) and the direct edge A-C (r2). -/
def filasRut5040 : List FilaRuta :=
  [{ ruta := "r1", parada := "A", seq := some 1 }, { ruta := "r1", parada := "B", seq := some 2 },
   { ruta := "r1", parada := "C", seq := some 3 },
   { ruta := "r2", parada := "A", seq := some 1 }, { ruta := "r2", parada := "C", seq := some 2 }]

/-- Cache overriding the distances to 25 (A-B), 15 (B-C) and 50 (A-C). -/
def cache5040 : Cache :=
  [(((0, 0), (0, 1)), { dist := some 25, time_min := none }),
   (((0, 1), (0, 2)), { dist := some 15, time_min := none }),
   (((0, 0), (0, 2)), { dist := some 50, time_min := none })]

/-- The finished 50/40 graph (certified below): direct A-C edge of 50 km and
the alternative A-B-C totalling 40 km. -/
def g5040 : Graph :=
  { nodos := [("A", (0, 0)), ("B", (0, 1)), ("C", (0, 2))],
    coords := [("A", (0, 0)), ("B", (0, 1)), ("C", (0, 2))],
    aristas := [("A", [("B", { dist := 25, time := none }), ("C", { dist := 50, time := none })]),
                ("B", [("A", { dist := 25, time := none }), ("C", { dist := 15, time := none })]),
                ("C", [("B", { dist := 15, time := none }), ("A", { dist := 50, time := none })])] }

/-- Route rows for the single edge A-B. -/
def filasRutAB : List FilaRuta :=
  [{ ruta := "r", parada := "A", seq := some 1 }, { ruta := "r", parada := "B", seq := some 2 }]

/-- The finished graph with the single undirected edge A-B (certified below). -/
def gABe : Graph :=
  { nodos := [("A", (0, 0)), ("B", (0, 1))],
    coords := [("A", (0, 0)), ("B", (0, 1))],
    aristas := [("A", [("B", { dist := 7, time := none })]),
                ("B", [("A", { dist := 7, time := none })])] }

/-- Cache containing both directional keys of the same coordinate pair with
different distance values. -/
def cacheC3 : Cache :=
  [(((0, 0), (0, 1)), { dist := some 1, time_min := none }),
   (((0, 1), (0, 0)), { dist := some 2, time_min := none })]

/-- Cache entry with `dist: 5.0` and `time_min: 0` for the A-B edge. -/
def cacheC4 : Cache := [(((0, 0), (0, 1)), { dist := some 5, time_min := some 0 })]

/-- The caller-side total-time loop of `app.py` (`main`, lines 57-65):
`t = grafo.aristas[a][b].get("time"); if t: tiempo_total += t`.
A falsy `t` (absent or zero) contributes nothing; `none` models the
`KeyError` when a consecutive pair is not an edge. -/
def tiempo_total (g : Graph) : List String → Option ℚ
  | a :: b :: rest =>
    match dictGet2 g.aristas a b with
    | none => none
    | some e =>
      match tiempo_total g (b :: rest) with
      | none => none
      | some s =>
        some ((match e.time with
               | some t => if t = 0 then 0 else t
               | none => 0) + s)
  | _ => some 0

/-- The graph `cargar_cache_aristas gABe cacheC4` produces (certified below). -/
def gC4res : Graph :=
  { nodos := [("A", (0, 0)), ("B", (0, 1))],
    coords := [("A", (0, 0)), ("B", (0, 1))],
    aristas := [("A", [("B", { dist := 5, time := none })]),
                ("B", [("A", { dist := 5, time := none })])] }

/-- The graph `cargar_cache_aristas gABe cacheC3` produces (certified below):
note the asymmetric distances. -/
def gC3res : Graph :=
  { nodos := [("A", (0, 0)), ("B", (0, 1))],
    coords := [("A", (0, 0)), ("B", (0, 1))],
    aristas := [("A", [("B", { dist := 1, time := none })]),
                ("B", [("A", { dist := 2, time := none })])] }

/-- The graph `cargar_rutas hav7 gABC filasRut5040` produces before the cache
merge (certified below): all three edges at the geometric 7 km. -/
def gPre5040 : Graph :=
  { nodos := [("A", (0, 0)), ("B", (0, 1)), ("C", (0, 2))],
    coords := [("A", (0, 0)), ("B", (0, 1)), ("C", (0, 2))],
    aristas := [("A", [("B", { dist := 7, time := none }), ("C", { dist := 7, time := none })]),
                ("B", [("A", { dist := 7, time := none }), ("C", { dist := 7, time := none })]),
                ("C", [("B", { dist := 7, time := none }), ("A", { dist := 7, time := none })])] }

deriving instance DecidableEq for Except

/-- The spec's description of the caller-side travel-time total: sum each
consecutive edge's `time_min` when present, an edge without a time
contributing `0` (the code has no average-speed estimation). -/
def tiempo_segun_espec (g : Graph) (ruta : List String) : ℚ :=
  ((ruta.zip ruta.tail).map (fun p =>
      match dictGet2 g.aristas p.1 p.2 with
      | some e => e.time.getD 0
      | none => 0)).sum

/-- The symmetry invariant of the spec: whenever `graph[a][b]` exists,
`graph[b][a]` exists and carries the same `dist` and `time`. -/
def Simetrica (g : Graph) : Prop :=
  ∀ a b e, dictGet2 g.aristas a b = some e → dictGet2 g.aristas b a = some e

/-- Decidable membership form of `Simetrica` for concrete graphs. -/
def SimetricaDec (g : Graph) : Prop :=
  ∀ p ∈ g.aristas, ∀ q ∈ p.2, dictGet2 g.aristas q.1 p.1 = some q.2

instance (g : Graph) : Decidable (SimetricaDec g) := by
  unfold SimetricaDec
  infer_instance

/-- The cache never pairs the two directional keys of one coordinate pair with
different entries. -/
def Coherente (cache : Cache) : Prop :=
  ∀ c1 c2 e e', dictGet cache (c1, c2) = some e → dictGet cache (c2, c1) = some e' →
    e' = e

/-- Decidable membership form of `Coherente` for concrete caches. -/
def CoherenteDec (cache : Cache) : Prop :=
  ∀ p ∈ cache, ∀ q ∈ cache, q.1 = (p.1.2, p.1.1) → q.2 = p.2

instance (cache : Cache) : Decidable (CoherenteDec cache) := by
  unfold CoherenteDec
  infer_instance

/-- Every `coords` key is an `aristas` key (holds along the build pipeline). -/
def KeysSync (g : Graph) : Prop :=
  ∀ x, x ∈ g.coords.map Prod.fst → x ∈ g.aristas.map Prod.fst

/-- The value the cache merge writes for the directed edge `(a, b)` holding
`e`, as a total function (the fallback branches are unreachable when the merge
succeeds). -/
def valor_fusionado (cache : Cache) (coords : List (String × Coord)) (a b : String)
    (e : Arista) : Arista :=
  match dictGet coords a, dictGet coords b with
  | some c1, some c2 =>
    match buscar_datos cache c1 c2 with
    | none => e
    | some datos => actualizar_arista datos e
  | _, _ => e

/-- Walks of the graph: `Camino adj origen z p w` means `p` is a nonempty
sequence of stations from `origen` to `z` whose consecutive pairs are edges of
`adj`, of total `dist`-weight `w`. -/
inductive Camino (adj : List (String × List (String × Arista))) (origen : String) :
    String → List String → ℚ → Prop where
  | nil : Camino adj origen origen [origen] 0
  | snoc (b c : String) (p : List String) (w : ℚ) (e : Arista) :
      Camino adj origen b p w → dictGet2 adj b c = some e →
      Camino adj origen c (p ++ [c]) (w + e.dist)

/-- Well-formedness of a finished graph's adjacency structure, in decidable
membership form: outer keys are unique, each neighbour list has unique keys,
every neighbour is itself an outer key, and all edge weights are nonnegative. -/
def GrafoWF (g : Graph) : Prop :=
  (g.aristas.map Prod.fst).Nodup ∧
  ∀ p ∈ g.aristas, (p.2.map Prod.fst).Nodup ∧
    ∀ q ∈ p.2, q.1 ∈ g.aristas.map Prod.fst ∧ 0 ≤ q.2.dist

instance (g : Graph) : Decidable (GrafoWF g) := by
  unfold GrafoWF
  infer_instance

/-- Position of the first occurrence of `x` in `S`, or `S.length` if absent. -/
def rankOr (S : List String) (x : String) : ℕ :=
  match S with
  | [] => 0
  | y :: rest => if y = x then 0 else rankOr rest x + 1

/-- Total length of the neighbour lists of the keys of `adj` not yet in `S`
(the settled list); part of the loop termination measure. -/
def degSum (adj : List (String × List (String × Arista))) (S : List String) : ℕ :=
  ((adj.filter (fun p => decide (p.1 ∉ S))).map (fun p => p.2.length)).sum

/-- Fuel sufficient for `ruta_mas_corta` to finish on a well-formed graph:
one initial heap entry plus one heap entry per directed edge bounds the loop,
and the vertex count bounds the reconstruction. -/
def fuelBound (g : Graph) : ℕ :=
  2 + degSum g.aristas [] + g.aristas.length

/-- Every directed edge of the adjacency structure is nonnegative and points
at an outer key (the part of `GrafoWF` the solver proof reads edge-wise). -/
def ArcosOK (adj : List (String × List (String × Arista))) : Prop :=
  ∀ a v e, dictGet2 adj a v = some e → 0 ≤ e.dist ∧ v ∈ adj.map Prod.fst

/-- Dijkstra invariant: every settled node's outgoing edges have been
relaxed. -/
def Relaxed (adj : List (String × List (String × Arista))) (S : List String)
    (dist : List (String × Option ℚ)) : Prop :=
  ∀ x ∈ S, ∀ dx, dictGet dist x = some (some dx) → ∀ v e, dictGet2 adj x v = some e →
    ∃ dv, dictGet dist v = some (some dv) ∧ dv ≤ dx + e.dist

/-- `Relaxed` with the edges of `u` still listed in `l` exempted (the
intermediate states of the neighbour loop). -/
def RelaxedSalvo (adj : List (String × List (String × Arista))) (S : List String)
    (dist : List (String × Option ℚ)) (u : String) (l : List (String × Arista)) : Prop :=
  ∀ x ∈ S, ∀ dx, dictGet dist x = some (some dx) → ∀ v e, dictGet2 adj x v = some e →
    (x = u ∧ (v, e) ∈ l) ∨ ∃ dv, dictGet dist v = some (some dv) ∧ dv ≤ dx + e.dist

/-- The Dijkstra loop invariant, over the ghost settled list `S` (the nodes
popped fresh so far, in pop order). -/
structure InvB (adj : List (String × List (String × Arista))) (origen : String)
    (S : List String) (pq : List (ℚ × String)) (dist : List (String × Option ℚ))
    (prev : List (String × Option String)) : Prop where
  keys_dist : dist.map Prod.fst = adj.map Prod.fst
  keys_prev : prev.map Prod.fst = adj.map Prod.fst
  s_sub : ∀ x ∈ S, x ∈ adj.map Prod.fst
  s_nodup : S.Nodup
  pq_mem : ∀ en ∈ pq, (en : ℚ × String).2 ∈ adj.map Prod.fst
  dist_origen : dictGet dist origen = some (some 0)
  sound : ∀ v dv, dictGet dist v = some (some dv) → ∃ p, Camino adj origen v p dv
  pq_ge : ∀ d y, (d, y) ∈ pq → ∃ dy, dictGet dist y = some (some dy) ∧ dy ≤ d
  fresh_pq : ∀ v dv, v ∉ S → dictGet dist v = some (some dv) → (dv, v) ∈ pq
  origen_en : origen ∈ S ∨ (0, origen) ∈ pq
  settled_fin : ∀ x ∈ S, ∃ dx, dictGet dist x = some (some dx)
  settled_min : ∀ x ∈ S, ∀ dx, dictGet dist x = some (some dx) →
    ∀ p w, Camino adj origen x p w → dx ≤ w
  prev_origen : dictGet prev origen = some none
  prev_fin : ∀ v, v ≠ origen → ∀ dv, dictGet dist v = some (some dv) →
    ∃ u, dictGet prev v = some (some u)
  prev_chain : ∀ v u, dictGet prev v = some (some u) →
    ∃ e du dv, dictGet2 adj u v = some e ∧ dictGet dist u = some (some du) ∧
      dictGet dist v = some (some dv) ∧ dv = du + e.dist ∧ u ∈ S ∧
      (v ∈ S → rankOr S u < rankOr S v)

/- ----------------------------------------------------------------
Association-list lemmas. -/

theorem dictGet_dictSet_self {κ α : Type} [DecidableEq κ] (l : List (κ × α)) (k : κ) (v : α) :
    dictGet (dictSet l k v) k = some v := by
  induction l with
  | nil => simp [dictGet, dictSet]
  | cons p rest ih =>
    by_cases h : p.1 = k
    · simp [dictSet, h, dictGet]
    · simp [dictSet, h, dictGet, ih]

theorem dictGet_dictSet_ne {κ α : Type} [DecidableEq κ] (l : List (κ × α)) (k k' : κ) (v : α)
    (h : k' ≠ k) : dictGet (dictSet l k v) k' = dictGet l k' := by
  induction l with
  | nil => simp [dictGet, dictSet, Ne.symm h]
  | cons p rest ih =>
    by_cases hp : p.1 = k
    · simp [dictSet, hp, dictGet, Ne.symm h]
    · simp [dictSet, hp, dictGet, ih]

theorem keys_dictSet_of_mem {κ α : Type} [DecidableEq κ] (l : List (κ × α)) (k : κ) (v : α)
    (h : k ∈ l.map Prod.fst) : (dictSet l k v).map Prod.fst = l.map Prod.fst := by
  induction l with
  | nil => simp at h
  | cons p rest ih =>
    simp only [List.map_cons, List.mem_cons] at h
    by_cases hp : p.1 = k
    · simp [dictSet, hp]
    · rcases h with h | h
      · exact absurd h.symm hp
      · simp [dictSet, hp, ih h]

theorem dictGet_eq_none_iff {κ α : Type} [DecidableEq κ] (l : List (κ × α)) (k : κ) :
    dictGet l k = none ↔ k ∉ l.map Prod.fst := by
  induction l with
  | nil => simp [dictGet]
  | cons p rest ih =>
    by_cases hp : p.1 = k
    · simp [dictGet, hp]
    · have hstep : dictGet (p :: rest) k = dictGet rest k := by simp [dictGet, hp]
      rw [hstep, ih]
      simp only [List.map_cons, List.mem_cons]
      constructor
      · intro h hc
        rcases hc with hc | hc
        · exact hp hc.symm
        · exact h hc
      · intro h hc
        exact h (Or.inr hc)

theorem dictGet_isSome_of_mem {κ α : Type} [DecidableEq κ] (l : List (κ × α)) (k : κ)
    (h : k ∈ l.map Prod.fst) : ∃ v, dictGet l k = some v := by
  rcases hv : dictGet l k with _ | v
  · exact absurd h ((dictGet_eq_none_iff l k).mp hv)
  · exact ⟨v, rfl⟩

theorem mem_keys_of_dictGet {κ α : Type} [DecidableEq κ] {l : List (κ × α)} {k : κ} {v : α}
    (h : dictGet l k = some v) : k ∈ l.map Prod.fst := by
  by_contra hm
  rw [(dictGet_eq_none_iff l k).mpr hm] at h
  cases h

theorem dictGet_mem {κ α : Type} [DecidableEq κ] {l : List (κ × α)} {k : κ} {v : α}
    (h : dictGet l k = some v) : (k, v) ∈ l := by
  induction l with
  | nil => simp [dictGet] at h
  | cons p rest ih =>
    by_cases hp : p.1 = k
    · have hpe : p = (k, p.2) := by rw [← hp]
      simp only [dictGet, if_pos hp] at h
      injection h with h
      subst h
      exact List.mem_cons.mpr (Or.inl hpe.symm)
    · simp only [dictGet, if_neg hp] at h
      exact List.mem_cons_of_mem _ (ih h)

theorem mem_dictGet {κ α : Type} [DecidableEq κ] {l : List (κ × α)} {k : κ} {v : α}
    (hnd : (l.map Prod.fst).Nodup) (h : (k, v) ∈ l) : dictGet l k = some v := by
  induction l with
  | nil => simp at h
  | cons p rest ih =>
    simp only [List.map_cons, List.nodup_cons] at hnd
    rcases List.mem_cons.mp h with h | h
    · subst h
      simp [dictGet]
    · have hne : p.1 ≠ k := by
        intro he
        exact hnd.1 (he ▸ (List.mem_map.mpr ⟨(k, v), h, rfl⟩))
      simp [dictGet, hne, ih hnd.2 h]

theorem dictGet_map_snd {κ α β : Type} [DecidableEq κ] (l : List (κ × α)) (f : κ → α → β)
    (k : κ) : dictGet (l.map (fun p => (p.1, f p.1 p.2))) k = (dictGet l k).map (f k) := by
  induction l with
  | nil => simp [dictGet]
  | cons p rest ih =>
    by_cases hp : p.1 = k
    · subst hp
      simp [dictGet]
    · simp [dictGet, hp, ih]

theorem keys_dictSetdefault {κ α : Type} [DecidableEq κ] (l : List (κ × α)) (k : κ) (v : α) :
    (dictSetdefault l k v).map Prod.fst = l.map Prod.fst ∨
      (dictSetdefault l k v).map Prod.fst = l.map Prod.fst ++ [k] := by
  unfold dictSetdefault
  rcases h : dictGet l k with _ | w
  · right
    simp
  · left
    rfl

theorem dictGet_append_some {κ α : Type} [DecidableEq κ] {l : List (κ × α)} {k : κ} {v : α}
    (l2 : List (κ × α)) (h : dictGet l k = some v) : dictGet (l ++ l2) k = some v := by
  induction l with
  | nil => simp [dictGet] at h
  | cons p rest ih =>
    by_cases hp : p.1 = k
    · simp only [dictGet, if_pos hp] at h
      simp [dictGet, hp, h]
    · simp only [dictGet, if_neg hp] at h
      simp [dictGet, hp, ih h]

theorem dictGet_append_none {κ α : Type} [DecidableEq κ] {l : List (κ × α)} {k : κ}
    (l2 : List (κ × α)) (h : dictGet l k = none) : dictGet (l ++ l2) k = dictGet l2 k := by
  induction l with
  | nil => simp [dictGet]
  | cons p rest ih =>
    by_cases hp : p.1 = k
    · simp [dictGet, hp] at h
    · simp only [dictGet, if_neg hp] at h
      simp [dictGet, hp, ih h]

/- ----------------------------------------------------------------
Certification of the literal graphs as build-pipeline outputs. -/

theorem gVac_cert :
    cargar_rutas hav7 (cargar_estaciones Graph.empty filasEstVac) filasRutVac =
      Except.ok gVac := by
  norm_num +decide [cargar_rutas, agrupar, agrupar_paso, agregar_parada, construir_paso,
    procesar_ruta, pysort, insertar, insLe, pyStrLt, pyStrLtAux, pyStrip,
    conectar_consecutivas, agregar_arista, dictGet, dictSet, dictSetdefault,
    cargar_estaciones, registrar_estacion, hav7, Graph.empty, filasEstVac, filasRutVac, gVac]

theorem gC6_cert : cargar_rutas hav7 gABC filasRutC6 = Except.ok gC6 := by
  norm_num +decide [cargar_rutas, agrupar, agrupar_paso, agregar_parada, construir_paso,
    procesar_ruta, pysort, insertar, insLe, pyStrLt, pyStrLtAux, pyStrip,
    conectar_consecutivas, agregar_arista, dictGet, dictSet, dictSetdefault,
    cargar_estaciones, registrar_estacion, hav7, Graph.empty, filasEstABC, filasRutC6, gC6,
    gABC]

theorem gABe_cert : cargar_rutas hav7 gAB filasRutAB = Except.ok gABe := by
  norm_num +decide [cargar_rutas, agrupar, agrupar_paso, agregar_parada, construir_paso,
    procesar_ruta, pysort, insertar, insLe, pyStrLt, pyStrLtAux, pyStrip,
    conectar_consecutivas, agregar_arista, dictGet, dictSet, dictSetdefault,
    cargar_estaciones, registrar_estacion, hav7, Graph.empty, filasEstAB, filasRutAB, gABe,
    gAB]

theorem gPre5040_cert : cargar_rutas hav7 gABC filasRut5040 = Except.ok gPre5040 := by
  norm_num +decide [cargar_rutas, agrupar, agrupar_paso, agregar_parada, construir_paso,
    procesar_ruta, pysort, insertar, insLe, pyStrLt, pyStrLtAux, pyStrip,
    conectar_consecutivas, agregar_arista, dictGet, dictSet, dictSetdefault,
    cargar_estaciones, registrar_estacion, hav7, Graph.empty, filasEstABC, filasRut5040,
    gPre5040, gABC]

theorem g5040_cert : cargar_cache_aristas gPre5040 cache5040 = Except.ok g5040 := by
  decide

theorem gC4res_cert : cargar_cache_aristas gABe cacheC4 = Except.ok gC4res := by
  decide

theorem gC3res_cert : cargar_cache_aristas gABe cacheC3 = Except.ok gC3res := by
  decide

/- ----------------------------------------------------------------
C2.  The solver raises `KeyError` when a queried station is absent. -/

/-- C2: evaluating `ruta_mas_corta` on a finished one/two-station graph shows
that an absent destination or origin raises `KeyError` (at `dist[destino]`
resp. `self.aristas[u]`) instead of returning the `(None, None)` sentinel; the
sentinel is produced only in the third case, both stations present but
disconnected.  This refutes the claim that all three cases return the
sentinel and never raise. -/
theorem C2_absent_station_keyerror :
    ruta_mas_corta gA 5 "A" "B" = ResultadoRuta.keyError ∧
    ruta_mas_corta gA 5 "B" "A" = ResultadoRuta.keyError ∧
    ruta_mas_corta gAB 5 "A" "B" = ResultadoRuta.sinRuta := by
  refine ⟨?_, ?_, ?_⟩ <;> decide

/- ----------------------------------------------------------------
C7.  An unparseable sequence number aborts the route load. -/

theorem agrupar_foldl_none (filas : List FilaRuta) :
    filas.foldl agrupar_paso none = none := by
  induction filas with
  | nil => rfl
  | cons f rest ih => simpa [agrupar_paso] using ih

theorem agrupar_foldl_bad (filas : List FilaRuta) (acc : Option (List (String × List (Int × String))))
    (h : ∃ fila ∈ filas, fila.seq = none) : filas.foldl agrupar_paso acc = none := by
  induction filas generalizing acc with
  | nil => simp at h
  | cons f rest ih =>
    obtain ⟨fila, hmem, hseq⟩ := h
    rcases List.mem_cons.mp hmem with hf | hf
    · subst hf
      have hstep : agrupar_paso acc fila = none := by
        rcases acc with _ | m <;> simp [agrupar_paso, hseq]
      rw [List.foldl_cons, hstep]
      exact agrupar_foldl_none rest
    · rw [List.foldl_cons]
      exact ih _ ⟨fila, hf, hseq⟩

/-- C7 (amended): a route record whose sequence number fails to parse as an
integer makes `cargar_rutas` propagate the error and abort the whole load
(there is no try/except around `int(...)`); records are not skipped. -/
theorem C7_seq_invalida_aborta (hav : Coord → Coord → ℚ) (g : Graph) (filas : List FilaRuta)
    (h : ∃ fila ∈ filas, fila.seq = none) :
    cargar_rutas hav g filas = Except.error () := by
  have hag : agrupar filas = none := agrupar_foldl_bad filas (some []) h
  unfold cargar_rutas
  rw [hag]

/-- C7 counterexample: on input with an unparseable first sequence number and
a parseable second record, the load aborts with an error; the claim predicted
the bad record would be skipped and the load would succeed. -/
theorem C7_contraejemplo :
    cargar_rutas hav7 gABC filasRutMal = Except.error () := by
  decide

/-- C7 witness. -/
theorem C7_testigo :
    (∃ fila ∈ filasRutMal, fila.seq = none) ∧
      cargar_rutas hav7 gABC filasRutMal = Except.error () :=
  ⟨by decide, C7_seq_invalida_aborta hav7 gABC filasRutMal (by decide)⟩

/- ----------------------------------------------------------------
C8.  shortest_path(x, x). -/

/-- C8 (amended): for every station `x` present in the graph whose name is
nonempty, `shortest_path(x, x)` returns the single-element path `[x]` with
distance `0` (for any fuel covering the single loop iteration).  The
nonemptiness condition is forced by the counterexample: the reconstruction
loop `while x:` treats the empty string as the terminator `None`. -/
theorem C8_camino_trivial (g : Graph) (x : String) (fuel : ℕ) (hf : 1 ≤ fuel)
    (hx : x ∈ g.aristas.map Prod.fst) (hne : x ≠ "") :
    ruta_mas_corta g fuel x x = ResultadoRuta.ruta [x] 0 := by
  obtain ⟨n, rfl⟩ : ∃ n, fuel = n + 1 := ⟨fuel - 1, (Nat.succ_pred_eq_of_pos hf).symm⟩
  have hloop : dijkstra_loop g.aristas x (n + 1) [(0, x)]
      (dictSet (g.aristas.map fun p => (p.1, (none : Option ℚ))) x (some 0))
      (g.aristas.map fun p => (p.1, (none : Option String))) =
      SalidaBucle.done
        (dictSet (g.aristas.map fun p => (p.1, (none : Option ℚ))) x (some 0))
        (g.aristas.map fun p => (p.1, (none : Option String))) := by
    simp [dijkstra_loop, popMin]
  have hprev : dictGet (g.aristas.map fun p => (p.1, (none : Option String))) x =
      some none := by
    obtain ⟨v, hv⟩ := dictGet_isSome_of_mem g.aristas x hx
    rw [dictGet_map_snd g.aristas (fun _ _ => (none : Option String)) x, hv]
    rfl
  have hrec : reconstruir (g.aristas.map fun p => (p.1, (none : Option String))) (n + 1)
      (some x) = SalidaRecon.done [x] := by
    simp [reconstruir, hne, hprev]
  unfold ruta_mas_corta
  rw [hloop]
  simp [dictGet_dictSet_self, hrec]

/-- C8 counterexample: the finished graph `gVac` contains the station with
empty name (a blank CSV name field with valid coordinates); on it
`shortest_path("", "")` returns the empty path `[]` with distance `0` rather
than the claimed single-element path `[""]`. -/
theorem C8_contraejemplo :
    "" ∈ gVac.aristas.map Prod.fst ∧
    ruta_mas_corta gVac 8 "" "" = ResultadoRuta.ruta [] 0 ∧
    ResultadoRuta.ruta ([] : List String) 0 ≠ ResultadoRuta.ruta [""] 0 := by
  refine ⟨by decide, ?_, by decide⟩
  decide

/-- C8 witness. -/
theorem C8_testigo :
    (1 ≤ 5 ∧ "A" ∈ gAB.aristas.map Prod.fst ∧ "A" ≠ "") ∧
      ruta_mas_corta gAB 5 "A" "A" = ResultadoRuta.ruta ["A"] 0 :=
  ⟨by decide, C8_camino_trivial gAB "A" 5 (by decide) (by decide) (by decide)⟩

/- ----------------------------------------------------------------
C9.  The caller-side travel-time total. -/

/-- C9 (amended): on a path all of whose consecutive pairs are edges, the
caller-computed total of `app.py` equals the sum over consecutive edges of
`time_min` when present and `0` when absent — no distance/average-speed
estimate is added for timeless edges (no average-speed configuration exists
in the program).  A present time of `0` is skipped by Python truthiness,
which coincides with adding `0`. -/
theorem C9_sin_estimacion (g : Graph) (ruta : List String)
    (h : ∀ p ∈ ruta.zip ruta.tail, (dictGet2 g.aristas p.1 p.2).isSome = true) :
    tiempo_total g ruta = some (tiempo_segun_espec g ruta) := by
  induction ruta with
  | nil => simp [tiempo_total, tiempo_segun_espec]
  | cons a resto ih =>
    match resto, ih with
    | [], _ => simp [tiempo_total, tiempo_segun_espec]
    | b :: rest, ih =>
      have hab : (dictGet2 g.aristas a b).isSome = true := by
        exact h (a, b) (by simp)
      obtain ⟨e, he⟩ : ∃ e, dictGet2 g.aristas a b = some e := by
        rcases hg : dictGet2 g.aristas a b with _ | e
        · rw [hg] at hab
          simp at hab
        · exact ⟨e, rfl⟩
      have hrest : tiempo_total g (b :: rest) = some (tiempo_segun_espec g (b :: rest)) := by
        apply ih
        intro p hp
        apply h
        simp only [List.zip_cons_cons, List.tail_cons]
        exact List.mem_cons_of_mem _ hp
      have hcontrib : (match e.time with
          | some t => if t = 0 then 0 else t
          | none => (0 : ℚ)) = e.time.getD 0 := by
        rcases e.time with _ | t
        · rfl
        · by_cases h0 : t = 0 <;> simp [h0]
      show tiempo_total g (a :: b :: rest) = _
      rw [show tiempo_total g (a :: b :: rest) =
          match dictGet2 g.aristas a b with
          | none => none
          | some e =>
            match tiempo_total g (b :: rest) with
            | none => none
            | some s =>
              some ((match e.time with
                     | some t => if t = 0 then 0 else t
                     | none => 0) + s) from rfl]
      rw [show tiempo_segun_espec g (a :: b :: rest) =
          (match dictGet2 g.aristas a b with
           | some e => e.time.getD 0
           | none => 0) + tiempo_segun_espec g (b :: rest) from by
        simp [tiempo_segun_espec]]
      simp only [he, hrest]
      rw [hcontrib]

/-- C9 counterexample: in the finished graph `gABe` the edge A-B has
`distance_km = 7` and no `time_min`; the caller-computed total for the path
`[A, B]` is `0`, whereas the claim's estimate `distance_km / avg_speed_kmh *
60` is strictly positive for any (nonexistent) configured average speed. -/
theorem C9_contraejemplo :
    dictGet2 gABe.aristas "A" "B" = some { dist := 7, time := none } ∧
    tiempo_total gABe ["A", "B"] = some 0 := by
  constructor
  · decide
  · norm_num +decide [tiempo_total, dictGet2, dictGet, gABe]

/-- C9 witness. -/
theorem C9_testigo :
    (∀ p ∈ (["A", "B"].zip ["A", "B"].tail),
        (dictGet2 gABe.aristas p.1 p.2).isSome = true) ∧
      tiempo_total gABe ["A", "B"] = some (tiempo_segun_espec gABe ["A", "B"]) :=
  ⟨by decide, C9_sin_estimacion gABe ["A", "B"] (by decide)⟩

/- ----------------------------------------------------------------
Cache-merge structure lemmas. -/

theorem fusionar_adj_eq_map (cache : Cache) (coords : List (String × Coord)) (a : String)
    (adj adj' : List (String × Arista)) (h : fusionar_adj cache coords a adj = some adj') :
    adj' = adj.map (fun q => (q.1, valor_fusionado cache coords a q.1 q.2)) := by
  induction adj generalizing adj' with
  | nil =>
    simp only [fusionar_adj] at h
    injection h with h
    simp [← h]
  | cons q rest ih =>
    obtain ⟨b, e⟩ := q
    rcases hc1 : dictGet coords a with _ | c1
    · rw [show fusionar_adj cache coords a ((b, e) :: rest) =
          match dictGet coords a, dictGet coords b with
          | some c1, some c2 =>
            (fusionar_adj cache coords a rest).map
              (fun rest' => (b, match buscar_datos cache c1 c2 with
                                | none => e
                                | some datos => actualizar_arista datos e) :: rest')
          | _, _ => none from rfl, hc1] at h
      rcases dictGet coords b with _ | c2 <;> cases h
    · rcases hc2 : dictGet coords b with _ | c2
      · rw [show fusionar_adj cache coords a ((b, e) :: rest) =
            match dictGet coords a, dictGet coords b with
            | some c1, some c2 =>
              (fusionar_adj cache coords a rest).map
                (fun rest' => (b, match buscar_datos cache c1 c2 with
                                  | none => e
                                  | some datos => actualizar_arista datos e) :: rest')
            | _, _ => none from rfl, hc1, hc2] at h
        cases h
      · rw [show fusionar_adj cache coords a ((b, e) :: rest) =
            match dictGet coords a, dictGet coords b with
            | some c1, some c2 =>
              (fusionar_adj cache coords a rest).map
                (fun rest' => (b, match buscar_datos cache c1 c2 with
                                  | none => e
                                  | some datos => actualizar_arista datos e) :: rest')
            | _, _ => none from rfl, hc1, hc2] at h
        rcases hr : fusionar_adj cache coords a rest with _ | rest'
        · rw [hr] at h
          cases h
        · rw [hr] at h
          injection h with h
          subst h
          rw [ih rest' hr]
          simp only [List.map_cons]
          congr 1
          show (b, _) = (b, valor_fusionado cache coords a b e)
          rw [show valor_fusionado cache coords a b e =
              match dictGet coords a, dictGet coords b with
              | some c1, some c2 =>
                match buscar_datos cache c1 c2 with
                | none => e
                | some datos => actualizar_arista datos e
              | _, _ => e from rfl, hc1, hc2]

theorem fusionar_eq_map (cache : Cache) (coords : List (String × Coord))
    (ar l : List (String × List (String × Arista))) (h : fusionar cache coords ar = some l) :
    l = ar.map (fun p => (p.1, p.2.map (fun q =>
        (q.1, valor_fusionado cache coords p.1 q.1 q.2)))) := by
  induction ar generalizing l with
  | nil =>
    simp only [fusionar] at h
    injection h with h
    simp [← h]
  | cons p rest ih =>
    obtain ⟨a, adj⟩ := p
    rw [show fusionar cache coords ((a, adj) :: rest) =
        match fusionar_adj cache coords a adj, fusionar cache coords rest with
        | some adj', some rest' => some ((a, adj') :: rest')
        | _, _ => none from rfl] at h
    rcases ha : fusionar_adj cache coords a adj with _ | adj'
    · rw [ha] at h
      rcases fusionar cache coords rest with _ | rest' <;> cases h
    · rcases hr : fusionar cache coords rest with _ | rest'
      · rw [ha, hr] at h
        cases h
      · rw [ha, hr] at h
        injection h with h
        subst h
        rw [ih rest' hr, fusionar_adj_eq_map cache coords a adj adj' ha]
        simp

theorem fusionar_get2 (cache : Cache) (coords : List (String × Coord))
    (ar l : List (String × List (String × Arista))) (h : fusionar cache coords ar = some l)
    (x y : String) :
    dictGet2 l x y = (dictGet2 ar x y).map (valor_fusionado cache coords x y) := by
  rw [fusionar_eq_map cache coords ar l h]
  unfold dictGet2
  rw [dictGet_map_snd ar (fun a adj => adj.map (fun q =>
      (q.1, valor_fusionado cache coords a q.1 q.2))) x]
  rcases dictGet ar x with _ | adj
  · rfl
  · simp only [Option.map_some']
    rw [dictGet_map_snd adj (fun b e => valor_fusionado cache coords x b e) y]

theorem actualizar_arista_idem (d : DatosCache) (e : Arista) :
    actualizar_arista d (actualizar_arista d e) = actualizar_arista d e := by
  rcases hd : d.dist with _ | x <;> rcases ht : d.time_min with _ | t <;>
    simp [actualizar_arista, hd, ht]
  · by_cases h0 : 0 < t <;> simp [h0]
  · by_cases h0 : 0 < t <;> simp [h0]

theorem valor_fusionado_idem (cache : Cache) (coords : List (String × Coord))
    (a b : String) (e : Arista) :
    valor_fusionado cache coords a b (valor_fusionado cache coords a b e) =
      valor_fusionado cache coords a b e := by
  unfold valor_fusionado
  rcases dictGet coords a with _ | c1 <;> rcases dictGet coords b with _ | c2 <;> simp
  rcases buscar_datos cache c1 c2 with _ | datos <;> simp
  exact actualizar_arista_idem datos e

/- ----------------------------------------------------------------
C4.  The cache-merge time-update guard. -/

/-- C4: during the cache merge, for an edge `(a, b)` (value `e`) matched by a
cache entry `en` (via either directional key), the merged edge's time is
`some t` exactly when `en.time_min` is a present, strictly positive `t`; a
missing, zero or negative cached time leaves the edge's prior time untouched.
In particular (witness) the entry `{dist: 5.0, time_min: 0}` leaves a prior
`time` of `none` as `none`. -/
theorem C4_guardia_tiempo (g : Graph) (cache : Cache) (g' : Graph) (a b : String)
    (c1 c2 : Coord) (e : Arista) (en : DatosCache)
    (hm : cargar_cache_aristas g cache = Except.ok g')
    (hc1 : dictGet g.coords a = some c1) (hc2 : dictGet g.coords b = some c2)
    (he : dictGet2 g.aristas a b = some e)
    (hen : buscar_datos cache c1 c2 = some en) :
    ∃ e', dictGet2 g'.aristas a b = some e' ∧
      (∀ t, en.time_min = some t → 0 < t → e'.time = some t) ∧
      (en.time_min = none → e'.time = e.time) ∧
      (∀ t, en.time_min = some t → t ≤ 0 → e'.time = e.time) := by
  unfold cargar_cache_aristas at hm
  rcases hf : fusionar cache g.coords g.aristas with _ | l
  · rw [hf] at hm
    cases hm
  · rw [hf] at hm
    injection hm with hm
    subst hm
    have hval : valor_fusionado cache g.coords a b e = actualizar_arista en e := by
      unfold valor_fusionado
      simp only [hc1, hc2, hen]
    refine ⟨valor_fusionado cache g.coords a b e, ?_, ?_, ?_, ?_⟩
    · show dictGet2 l a b = _
      rw [fusionar_get2 cache g.coords g.aristas l hf a b, he]
      rfl
    · intro t ht h0
      rw [hval]
      simp [actualizar_arista, ht, h0]
    · intro ht
      rw [hval]
      simp [actualizar_arista, ht]
    · intro t ht h0
      rw [hval]
      simp [actualizar_arista, ht, not_lt.mpr h0]

/-- C4 witness: the particular instance from the claim, `{dist: 5.0,
time_min: 0}` against the A-B edge with no prior time. -/
theorem C4_testigo :
    (cargar_cache_aristas gABe cacheC4 = Except.ok gC4res ∧
     dictGet gABe.coords "A" = some (0, 0) ∧
     dictGet gABe.coords "B" = some (0, 1) ∧
     dictGet2 gABe.aristas "A" "B" = some { dist := 7, time := none } ∧
     buscar_datos cacheC4 (0, 0) (0, 1) = some { dist := some 5, time_min := some 0 }) ∧
    (∃ e', dictGet2 gC4res.aristas "A" "B" = some e' ∧
      (∀ t, ({ dist := some 5, time_min := some 0 } : DatosCache).time_min = some t →
        0 < t → e'.time = some t) ∧
      (({ dist := some 5, time_min := some 0 } : DatosCache).time_min = none →
        e'.time = ({ dist := 7, time := none } : Arista).time) ∧
      (∀ t, ({ dist := some 5, time_min := some 0 } : DatosCache).time_min = some t →
        t ≤ 0 → e'.time = ({ dist := 7, time := none } : Arista).time)) :=
  ⟨⟨gC4res_cert, by decide, by decide, by decide, by decide⟩,
    C4_guardia_tiempo gABe cacheC4 gC4res "A" "B" (0, 0) (0, 1)
      { dist := 7, time := none } { dist := some 5, time_min := some 0 }
      gC4res_cert (by decide) (by decide) (by decide) (by decide)⟩

/- ----------------------------------------------------------------
C5.  Idempotence of the cache merge. -/

theorem fusionar_adj_idem (cache : Cache) (coords : List (String × Coord)) (a : String)
    (adj adj' : List (String × Arista)) (h : fusionar_adj cache coords a adj = some adj') :
    fusionar_adj cache coords a adj' = some adj' := by
  induction adj generalizing adj' with
  | nil =>
    simp only [fusionar_adj] at h
    injection h with h
    subst h
    rfl
  | cons q rest ih =>
    obtain ⟨b, e⟩ := q
    rcases hc1 : dictGet coords a with _ | c1 <;>
      rcases hc2 : dictGet coords b with _ | c2 <;>
      simp only [fusionar_adj, hc1, hc2] at h ⊢
    · cases h
    · cases h
    · cases h
    · rcases hr : fusionar_adj cache coords a rest with _ | rest'
      · rw [hr] at h
        cases h
      · rw [hr] at h
        simp only [Option.map_some'] at h
        injection h with h
        subst h
        simp only [fusionar_adj, hc1, hc2, ih rest' hr, Option.map_some']
        congr 2
        rcases hb : buscar_datos cache c1 c2 with _ | datos
        · simp [hb]
        · simp [hb, actualizar_arista_idem]

theorem fusionar_idem (cache : Cache) (coords : List (String × Coord))
    (ar l : List (String × List (String × Arista))) (h : fusionar cache coords ar = some l) :
    fusionar cache coords l = some l := by
  induction ar generalizing l with
  | nil =>
    simp only [fusionar] at h
    injection h with h
    subst h
    rfl
  | cons p rest ih =>
    obtain ⟨a, adj⟩ := p
    simp only [fusionar] at h
    rcases ha : fusionar_adj cache coords a adj with _ | adj' <;> rw [ha] at h
    · rcases fusionar cache coords rest with _ | rest' <;> cases h
    · rcases hr : fusionar cache coords rest with _ | rest' <;> rw [hr] at h
      · cases h
      · injection h with h
        subst h
        simp only [fusionar, fusionar_adj_idem cache coords a adj adj' ha, ih rest' hr]

/-- C5: the cache merge is idempotent: running `cargar_cache_aristas` a second
time with the same cache mapping yields exactly the graph of the first run
(and a failing first run is reproduced unchanged). -/
theorem C5_fusion_idempotente (g : Graph) (cache : Cache) :
    (cargar_cache_aristas g cache).bind (fun g1 => cargar_cache_aristas g1 cache) =
      cargar_cache_aristas g cache := by
  unfold cargar_cache_aristas
  rcases hf : fusionar cache g.coords g.aristas with _ | l
  · rfl
  · have h2 : fusionar cache g.coords l = some l := fusionar_idem cache g.coords g.aristas l hf
    show (match fusionar cache g.coords l with
          | none => (Except.error () : Except Unit Graph)
          | some l2 => Except.ok { nodos := g.nodos, coords := g.coords, aristas := l2 }) =
        Except.ok { nodos := g.nodos, coords := g.coords, aristas := l }
    rw [h2]

/- ----------------------------------------------------------------
The Python tuple order used by `lista.sort()`. -/

theorem char_toNat_inj {a b : Char} (h : a.toNat = b.toNat) : a = b :=
  Char.ext (UInt32.ext h)

theorem pyStrLtAux_irrefl (l : List Char) : pyStrLtAux l l = false := by
  induction l with
  | nil => rfl
  | cons a as ih => simp [pyStrLtAux, ih]

theorem pyStrLtAux_conn : ∀ a b : List Char,
    pyStrLtAux a b = false → pyStrLtAux b a = false → a = b
  | [], [], _, _ => rfl
  | [], _ :: _, h1, _ => by simp [pyStrLtAux] at h1
  | _ :: _, [], _, h2 => by simp [pyStrLtAux] at h2
  | a :: as, b :: bs, h1, h2 => by
    rcases lt_trichotomy a.toNat b.toNat with hab | hab | hab
    · simp [pyStrLtAux, hab] at h1
    · have hc : a = b := char_toNat_inj hab
      subst hc
      simp only [pyStrLtAux, lt_irrefl, if_false] at h1 h2
      rw [pyStrLtAux_conn as bs h1 h2]
    · simp [pyStrLtAux, hab, not_lt.mpr (le_of_lt hab)] at h2

theorem pyStrLtAux_asymm : ∀ a b : List Char,
    pyStrLtAux a b = true → pyStrLtAux b a = false
  | [], [], h => by simp [pyStrLtAux] at h
  | [], _ :: _, _ => rfl
  | _ :: _, [], h => by simp [pyStrLtAux] at h
  | a :: as, b :: bs, h => by
    rcases lt_trichotomy a.toNat b.toNat with hab | hab | hab
    · simp only [pyStrLtAux, if_neg (Nat.lt_asymm hab), if_pos hab]
    · simp only [pyStrLtAux, hab, lt_irrefl, if_false] at h
      simp only [pyStrLtAux, hab, lt_irrefl, if_false]
      exact pyStrLtAux_asymm as bs h
    · simp only [pyStrLtAux, if_neg (Nat.lt_asymm hab), if_pos hab] at h
      exact Bool.noConfusion h

theorem pyStrLtAux_trans : ∀ a b c : List Char,
    pyStrLtAux a b = true → pyStrLtAux b c = true → pyStrLtAux a c = true
  | a, [], _, h1, _ => by
    rcases a with _ | ⟨x, xs⟩ <;> simp [pyStrLtAux] at h1
  | _, _ :: _, [], _, h2 => by simp [pyStrLtAux] at h2
  | [], _ :: _, _ :: _, _, _ => rfl
  | a :: as, b :: bs, c :: cs, h1, h2 => by
    rcases lt_trichotomy a.toNat b.toNat with hab | hab | hab
    · rcases lt_trichotomy b.toNat c.toNat with hbc | hbc | hbc
      · simp only [pyStrLtAux, if_pos (lt_trans hab hbc)]
      · simp only [pyStrLtAux, if_pos (hbc ▸ hab)]
      · simp only [pyStrLtAux, if_neg (Nat.lt_asymm hbc), if_pos hbc] at h2
        exact Bool.noConfusion h2
    · rcases lt_trichotomy b.toNat c.toNat with hbc | hbc | hbc
      · simp only [pyStrLtAux, if_pos (hab ▸ hbc)]
      · have hac : a.toNat = c.toNat := hab.trans hbc
        simp only [pyStrLtAux, hab, lt_irrefl, if_false] at h1
        simp only [pyStrLtAux, hbc, lt_irrefl, if_false] at h2
        simp only [pyStrLtAux, hac, lt_irrefl, if_false]
        exact pyStrLtAux_trans as bs cs h1 h2
      · simp only [pyStrLtAux, if_neg (Nat.lt_asymm hbc), if_pos hbc] at h2
        exact Bool.noConfusion h2
    · simp only [pyStrLtAux, if_neg (Nat.lt_asymm hab), if_pos hab] at h1
      exact Bool.noConfusion h1

theorem pyStrLt_conn {s t : String} (h1 : pyStrLt s t = false) (h2 : pyStrLt t s = false) :
    s = t := by
  cases s with
  | mk d1 =>
    cases t with
    | mk d2 => exact congrArg String.mk (pyStrLtAux_conn d1 d2 h1 h2)

theorem pyStrLt_asymm {s t : String} (h : pyStrLt s t = true) : pyStrLt t s = false :=
  pyStrLtAux_asymm _ _ h

theorem pyStrLt_trans {s t u : String} (h1 : pyStrLt s t = true) (h2 : pyStrLt t u = true) :
    pyStrLt s u = true :=
  pyStrLtAux_trans _ _ _ h1 h2

theorem pyStrLt_negtrans {a b c : String} (h1 : pyStrLt b a = false)
    (h2 : pyStrLt c b = false) : pyStrLt c a = false := by
  rcases h : pyStrLt c a with _ | _
  · rfl
  · rcases hbc : pyStrLt b c with _ | _
    · have hb : b = c := pyStrLt_conn hbc h2
      rw [hb] at h1
      rw [h1] at h
      exact Bool.noConfusion h
    · have := pyStrLt_trans hbc h
      rw [h1] at this
      exact Bool.noConfusion this

/-- Characterization of the tuple order as a proposition. -/
theorem insLe_iff (x y : Int × String) : insLe x y = true ↔
    x.1 < y.1 ∨ (x.1 = y.1 ∧ pyStrLt y.2 x.2 = false) := by
  unfold insLe
  rcases lt_trichotomy x.1 y.1 with h | h | h
  · simp [h]
  · have hnx : ¬ x.1 < y.1 := h ▸ lt_irrefl x.1
    have hny : ¬ y.1 < x.1 := h ▸ lt_irrefl x.1
    rw [if_neg hnx, if_neg hny]
    rcases hs : pyStrLt x.2 y.2 with _ | _
    · rcases ht : pyStrLt y.2 x.2 with _ | _ <;> simp [hs, ht, h, hnx]
    · have ht : pyStrLt y.2 x.2 = false := pyStrLt_asymm hs
      simp [hs, ht, h, hnx]
  · have hnx : ¬ x.1 < y.1 := not_lt.mpr (le_of_lt h)
    have hne : x.1 ≠ y.1 := (ne_of_lt h).symm
    rw [if_neg hnx, if_pos h]
    simp [hnx, hne]

theorem insLe_refl (x : Int × String) : insLe x x = true := by
  rw [insLe_iff]
  exact Or.inr ⟨rfl, pyStrLtAux_irrefl _⟩

theorem insLe_total (x y : Int × String) : insLe x y = true ∨ insLe y x = true := by
  rw [insLe_iff, insLe_iff]
  rcases lt_trichotomy x.1 y.1 with h | h | h
  · exact Or.inl (Or.inl h)
  · rcases ht : pyStrLt y.2 x.2 with _ | _
    · exact Or.inl (Or.inr ⟨h, rfl⟩)
    · exact Or.inr (Or.inr ⟨h.symm, pyStrLt_asymm ht⟩)
  · exact Or.inr (Or.inl h)

theorem insLe_antisymm (x y : Int × String) (h1 : insLe x y = true)
    (h2 : insLe y x = true) : x = y := by
  rw [insLe_iff] at h1 h2
  rcases h1 with h1 | ⟨he1, hs1⟩
  · rcases h2 with h2 | ⟨he2, _⟩
    · exact absurd h2 (lt_asymm h1)
    · exact absurd h1 (he2 ▸ lt_irrefl y.1)
  · rcases h2 with h2 | ⟨_, hs2⟩
    · exact absurd h2 (he1 ▸ lt_irrefl x.1)
    · exact Prod.ext he1 (pyStrLt_conn hs2 hs1)

theorem insLe_trans (x y z : Int × String) (h1 : insLe x y = true)
    (h2 : insLe y z = true) : insLe x z = true := by
  rw [insLe_iff] at h1 h2 ⊢
  rcases h1 with h1 | ⟨he1, hs1⟩
  · rcases h2 with h2 | ⟨he2, _⟩
    · exact Or.inl (lt_trans h1 h2)
    · exact Or.inl (he2 ▸ h1)
  · rcases h2 with h2 | ⟨he2, hs2⟩
    · exact Or.inl (he1 ▸ h2)
    · exact Or.inr ⟨he1.trans he2, pyStrLt_negtrans hs1 hs2⟩

/- ----------------------------------------------------------------
C6.  What `lista.sort()` actually sorts by. -/

theorem insertar_perm (x : Int × String) (l : List (Int × String)) :
    (insertar x l).Perm (x :: l) := by
  induction l with
  | nil => exact List.Perm.refl _
  | cons y ys ih =>
    by_cases h : insLe x y = true
    · simp [insertar, h]
    · simp only [insertar, h, if_false]
      exact (ih.cons y).trans (List.Perm.swap x y ys)

theorem insertar_pairwise (x : Int × String) (l : List (Int × String))
    (h : l.Pairwise (fun a b => insLe a b = true)) :
    (insertar x l).Pairwise (fun a b => insLe a b = true) := by
  induction l with
  | nil => simp [insertar]
  | cons y ys ih =>
    rcases List.pairwise_cons.mp h with ⟨hy, hys⟩
    by_cases hxy : insLe x y = true
    · simp only [insertar, hxy, if_true]
      refine List.pairwise_cons.mpr ⟨?_, h⟩
      intro z hz
      rcases List.mem_cons.mp hz with hz | hz
      · exact hz ▸ hxy
      · exact insLe_trans x y z hxy (hy z hz)
    · have hyx : insLe y x = true := (insLe_total x y).resolve_left hxy
      simp only [insertar, hxy, if_false]
      refine List.pairwise_cons.mpr ⟨?_, ih hys⟩
      intro z hz
      have hz' : z ∈ x :: ys := (insertar_perm x ys).mem_iff.mp hz
      rcases List.mem_cons.mp hz' with hz' | hz'
      · exact hz' ▸ hyx
      · exact hy z hz'

theorem pysort_perm (l : List (Int × String)) : (pysort l).Perm l := by
  induction l with
  | nil => exact List.Perm.refl _
  | cons x xs ih =>
    show (insertar x (pysort xs)).Perm (x :: xs)
    exact (insertar_perm x (pysort xs)).trans (ih.cons x)

theorem pysort_pairwise (l : List (Int × String)) :
    (pysort l).Pairwise (fun a b => insLe a b = true) := by
  induction l with
  | nil => simp [pysort]
  | cons x xs ih => exact insertar_pairwise x (pysort xs) ih

theorem pysort_eq_of_sorted (lista l' : List (Int × String)) (hperm : l'.Perm lista)
    (hsort : l'.Pairwise (fun a b => insLe a b = true)) : pysort lista = l' := by
  haveI : IsAntisymm (Int × String) (fun a b => insLe a b = true) := ⟨insLe_antisymm⟩
  exact List.eq_of_perm_of_sorted ((pysort_perm lista).trans hperm.symm)
    (pysort_pairwise lista) hsort

/-- C6 (amended): for every route, the builder's per-route processing sorts
the route's `(sequence_number, station_name)` pairs by full Python tuple
order — `sequence_number` ascending with ties broken by the station-name
string ascending, not by original input order — and then connects consecutive
pairs (whose endpoints are both registered) of that sorted order.  Stated as:
for any permutation `l'` of the input that is sorted under the tuple order,
processing the route equals connecting the consecutive elements of `l'`. -/
theorem C6_orden_de_ruta (hav : Coord → Coord → ℚ) (g : Graph)
    (lista l' : List (Int × String)) (hperm : l'.Perm lista)
    (hsort : l'.Pairwise (fun a b => insLe a b = true)) :
    procesar_ruta hav g lista = conectar_consecutivas hav g l' := by
  unfold procesar_ruta
  rw [pysort_eq_of_sorted lista l' hperm hsort]

/-- C6 counterexample: with route records B, A at sequence number 1 and C at
2, the claim (stable sort, ties in input order) predicts the sorted order
`[(1,B), (1,A), (2,C)]` and hence edges B-A and A-C; the code sorts full
tuples, giving `[(1,A), (1,B), (2,C)]` and edges A-B and B-C.  The finished
graph has no A-C edge and has a B-C edge. -/
theorem C6_contraejemplo :
    cargar_rutas hav7 gABC filasRutC6 = Except.ok gC6 ∧
    dictGet2 gC6.aristas "A" "C" = none ∧
    dictGet2 gC6.aristas "B" "C" = some { dist := 7, time := none } :=
  ⟨gC6_cert, by decide, by decide⟩

/-- C6 witness. -/
theorem C6_testigo :
    (([((1 : Int), "A"), (1, "B"), (2, "C")].Perm [(1, "B"), (1, "A"), (2, "C")]) ∧
      ([((1 : Int), "A"), (1, "B"), (2, "C")].Pairwise (fun a b => insLe a b = true))) ∧
    procesar_ruta hav7 gABC [((1 : Int), "B"), (1, "A"), (2, "C")] =
      conectar_consecutivas hav7 gABC [((1 : Int), "A"), (1, "B"), (2, "C")] :=
  ⟨⟨by decide, by decide⟩,
    C6_orden_de_ruta hav7 gABC [(1, "B"), (1, "A"), (2, "C")]
      [(1, "A"), (1, "B"), (2, "C")] (by decide) (by decide)⟩

/- ----------------------------------------------------------------
C3.  Symmetry of the graph. -/

theorem dictSet_dictSet {κ α : Type} [DecidableEq κ] (l : List (κ × α)) (k : κ) (v w : α) :
    dictSet (dictSet l k v) k w = dictSet l k w := by
  induction l with
  | nil => simp [dictSet]
  | cons p rest ih =>
    by_cases hp : p.1 = k
    · simp [dictSet, hp]
    · simp [dictSet, hp, ih]

theorem simetricaDec_simetrica (g : Graph) (h : SimetricaDec g) : Simetrica g := by
  intro a b e he
  unfold dictGet2 at he
  rcases ha : dictGet g.aristas a with _ | adj <;> rw [ha] at he
  · cases he
  · exact h (a, adj) (dictGet_mem ha) (b, e) (dictGet_mem he)

theorem coherenteDec_coherente (cache : Cache) (h : CoherenteDec cache) : Coherente cache := by
  intro c1 c2 e e' h1 h2
  exact h ((c1, c2), e) (dictGet_mem h1) ((c2, c1), e') (dictGet_mem h2) rfl

theorem buscar_datos_symm (cache : Cache) (hco : Coherente cache) (c1 c2 : Coord) :
    buscar_datos cache c2 c1 = buscar_datos cache c1 c2 := by
  unfold buscar_datos
  rcases h12 : dictGet cache (c1, c2) with _ | e <;>
    rcases h21 : dictGet cache (c2, c1) with _ | e' <;> simp
  · exact hco c1 c2 e e' h12 h21

theorem valor_fusionado_symm (cache : Cache) (coords : List (String × Coord))
    (hco : Coherente cache) (a b : String) (e : Arista) :
    valor_fusionado cache coords b a e = valor_fusionado cache coords a b e := by
  unfold valor_fusionado
  rcases hc1 : dictGet coords a with _ | c1 <;> rcases hc2 : dictGet coords b with _ | c2 <;>
    simp
  rw [buscar_datos_symm cache hco c1 c2]

theorem dictGet2_eq_row {κ α : Type} [DecidableEq κ] {m : List (κ × List (κ × α))} {a : κ}
    {adj : List (κ × α)} (h : dictGet m a = some adj) (b : κ) :
    dictGet2 m a b = dictGet adj b := by
  unfold dictGet2
  rw [h]

/-- The cache merge preserves the symmetry invariant as long as the cache is
directionally coherent. -/
theorem fusion_preserva_simetria (g : Graph) (cache : Cache) (g' : Graph)
    (hsym : Simetrica g) (hco : Coherente cache)
    (h : cargar_cache_aristas g cache = Except.ok g') : Simetrica g' := by
  unfold cargar_cache_aristas at h
  rcases hf : fusionar cache g.coords g.aristas with _ | l <;> rw [hf] at h
  · cases h
  · injection h with h
    subst h
    intro x y e hxy
    show dictGet2 l y x = some e
    rw [fusionar_get2 cache g.coords g.aristas l hf x y] at hxy
    rw [fusionar_get2 cache g.coords g.aristas l hf y x]
    rcases hg : dictGet2 g.aristas x y with _ | e0 <;> rw [hg] at hxy
    · cases hxy
    · simp only [Option.map_some'] at hxy
      injection hxy with hxy
      rw [hsym x y e0 hg]
      simp only [Option.map_some']
      rw [valor_fusionado_symm cache g.coords hco x y e0, hxy]

/-- `agregar_arista` preserves the symmetry invariant. -/
theorem agregar_preserva_simetria (hav : Coord → Coord → ℚ) (g g' : Graph) (a b : String)
    (hsym : Simetrica g) (h : agregar_arista hav g a b = some g') : Simetrica g' := by
  unfold agregar_arista at h
  rcases hc1 : dictGet g.coords a with _ | c1 <;> rw [hc1] at h
  · rcases dictGet g.coords b with _ | c2 <;> cases h
  rcases hc2 : dictGet g.coords b with _ | c2 <;> rw [hc2] at h
  · cases h
  simp only at h
  rcases ha : dictGet g.aristas a with _ | adjA <;> rw [ha] at h
  · cases h
  simp only at h
  rcases hb : dictGet (dictSet g.aristas a
      (dictSet adjA b { dist := hav c1 c2 / 1000, time := none })) b with _ | adjB <;>
    rw [hb] at h
  · cases h
  simp only at h
  injection h with h
  by_cases hab : a = b
  · subst hab
    rw [dictGet_dictSet_self] at hb
    injection hb with hb
    subst hb
    rw [dictSet_dictSet] at h
    subst h
    have hchar : ∀ x y, dictGet2 (dictSet g.aristas a
        (dictSet (dictSet adjA a { dist := hav c1 c2 / 1000, time := none }) a
          { dist := hav c1 c2 / 1000, time := none })) x y =
        if x = a then
          (if y = a then some { dist := hav c1 c2 / 1000, time := none }
           else dictGet2 g.aristas a y)
        else dictGet2 g.aristas x y := by
      intro x y
      rw [dictSet_dictSet]
      by_cases hx : x = a
      · subst hx
        rw [if_pos rfl, dictGet2_eq_row (dictGet_dictSet_self g.aristas x _) y]
        by_cases hy : y = x
        · subst hy
          rw [if_pos rfl, dictGet_dictSet_self]
        · rw [if_neg hy, dictGet_dictSet_ne _ _ _ _ hy, dictGet2_eq_row ha]
      · rw [if_neg hx]
        unfold dictGet2
        rw [dictGet_dictSet_ne _ _ _ _ hx]
    intro x y e hxy
    rw [hchar] at hxy
    show dictGet2 _ y x = some e
    rw [hchar]
    by_cases hx : x = a
    · subst hx
      rw [if_pos rfl] at hxy
      by_cases hy : y = x
      · subst hy
        rw [if_pos rfl] at hxy
        rw [if_pos rfl, if_pos rfl]
        exact hxy
      · rw [if_neg hy] at hxy
        rw [if_neg hy]
        exact hsym x y e hxy
    · rw [if_neg hx] at hxy
      have hsy := hsym x y e hxy
      by_cases hy : y = a
      · subst hy
        rw [if_pos rfl, if_neg hx]
        exact hsy
      · rw [if_neg hy]
        exact hsy
  · rw [dictGet_dictSet_ne _ _ _ _ (Ne.symm hab)] at hb
    subst h
    have hchar : ∀ x y, dictGet2 (dictSet (dictSet g.aristas a
        (dictSet adjA b { dist := hav c1 c2 / 1000, time := none })) b
        (dictSet adjB a { dist := hav c1 c2 / 1000, time := none })) x y =
        if x = a then
          (if y = b then some { dist := hav c1 c2 / 1000, time := none }
           else dictGet2 g.aristas a y)
        else if x = b then
          (if y = a then some { dist := hav c1 c2 / 1000, time := none }
           else dictGet2 g.aristas b y)
        else dictGet2 g.aristas x y := by
      intro x y
      by_cases hx : x = a
      · subst hx
        rw [if_pos rfl]
        have hrowa : dictGet (dictSet (dictSet g.aristas x
            (dictSet adjA b { dist := hav c1 c2 / 1000, time := none })) b
            (dictSet adjB x { dist := hav c1 c2 / 1000, time := none })) x =
            some (dictSet adjA b { dist := hav c1 c2 / 1000, time := none }) := by
          rw [dictGet_dictSet_ne _ _ _ _ hab]
          exact dictGet_dictSet_self _ _ _
        rw [dictGet2_eq_row hrowa y]
        by_cases hy : y = b
        · subst hy
          rw [if_pos rfl, dictGet_dictSet_self]
        · rw [if_neg hy, dictGet_dictSet_ne _ _ _ _ hy, dictGet2_eq_row ha]
      · rw [if_neg hx]
        by_cases hxb : x = b
        · subst hxb
          rw [if_pos rfl]
          rw [dictGet2_eq_row (dictGet_dictSet_self _ _ _) y]
          by_cases hy : y = a
          · subst hy
            rw [if_pos rfl, dictGet_dictSet_self]
          · rw [if_neg hy, dictGet_dictSet_ne _ _ _ _ hy, dictGet2_eq_row hb]
        · rw [if_neg hxb]
          unfold dictGet2
          rw [dictGet_dictSet_ne _ _ _ _ hxb, dictGet_dictSet_ne _ _ _ _ hx]
    intro x y e hxy
    rw [hchar] at hxy
    show dictGet2 _ y x = some e
    rw [hchar]
    by_cases hx : x = a
    · subst hx
      rw [if_pos rfl] at hxy
      by_cases hy : y = b
      · subst hy
        rw [if_pos rfl] at hxy
        rw [if_neg (Ne.symm hab), if_pos rfl, if_pos rfl]
        exact hxy
      · rw [if_neg hy] at hxy
        have hsy := hsym x y e hxy
        by_cases hya : y = x
        · subst hya
          rw [if_pos rfl, if_neg hab]
          exact hsy
        · rw [if_neg hya, if_neg hy]
          exact hsy
    · rw [if_neg hx] at hxy
      by_cases hxb : x = b
      · subst hxb
        rw [if_pos rfl] at hxy
        by_cases hy : y = a
        · subst hy
          rw [if_pos rfl] at hxy
          rw [if_pos rfl, if_pos rfl]
          exact hxy
        · rw [if_neg hy] at hxy
          have hsy := hsym x y e hxy
          by_cases hyb : y = x
          · subst hyb
            rw [if_neg hy, if_pos rfl, if_neg (Ne.symm hab)]
            exact hsy
          · rw [if_neg hy, if_neg hyb]
            exact hsy
      · rw [if_neg hxb] at hxy
        have hsy := hsym x y e hxy
        by_cases hya : y = a
        · subst hya
          rw [if_pos rfl, if_neg hxb]
          exact hsy
        · rw [if_neg hya]
          by_cases hyb : y = b
          · subst hyb
            rw [if_pos rfl, if_neg hx]
            exact hsy
          · rw [if_neg hyb]
            exact hsy

theorem dictGet2_setdefault_nil {κ α : Type} [DecidableEq κ]
    (m : List (κ × List (κ × α))) (n x y : κ) :
    dictGet2 (dictSetdefault m n []) x y = dictGet2 m x y := by
  unfold dictSetdefault
  rcases hn : dictGet m n with _ | adj
  · unfold dictGet2
    rcases hx : dictGet m x with _ | adjx
    · rw [dictGet_append_none _ hx]
      by_cases hnx : n = x
      · simp [dictGet, hnx]
      · simp [dictGet, hnx]
    · rw [dictGet_append_some _ hx]
  · rfl

theorem registrar_preserva_simetria (g : Graph) (fila : FilaEstacion)
    (hsym : Simetrica g) : Simetrica (registrar_estacion g fila) := by
  rcases hc : fila.coords with _ | c
  · unfold registrar_estacion
    rw [hc]
    exact hsym
  · have key : ∀ x y, dictGet2 (registrar_estacion g fila).aristas x y =
        dictGet2 g.aristas x y := by
      intro x y
      unfold registrar_estacion
      rw [hc]
      show dictGet2 (dictSetdefault g.aristas (pyStrip fila.nombre) []) x y = _
      exact dictGet2_setdefault_nil g.aristas (pyStrip fila.nombre) x y
    intro x y e hxy
    rw [key] at hxy
    rw [key]
    exact hsym x y e hxy

theorem estaciones_preserva_simetria (g : Graph) (filas : List FilaEstacion)
    (hsym : Simetrica g) : Simetrica (cargar_estaciones g filas) := by
  induction filas generalizing g with
  | nil => exact hsym
  | cons fila rest ih =>
    exact ih (registrar_estacion g fila) (registrar_preserva_simetria g fila hsym)

theorem conectar_preserva_simetria (hav : Coord → Coord → ℚ) (l : List (Int × String)) :
    ∀ g g', Simetrica g → conectar_consecutivas hav g l = some g' → Simetrica g' := by
  induction l with
  | nil =>
    intro g g' hsym h
    injection h with h
    exact h ▸ hsym
  | cons x rest ih =>
    match rest, ih with
    | [], _ =>
      intro g g' hsym h
      injection h with h
      exact h ▸ hsym
    | y :: rest', ih =>
      intro g g' hsym h
      simp only [conectar_consecutivas] at h
      rcases hstep : (if (dictGet g.coords x.2).isSome = true ∧
          (dictGet g.coords y.2).isSome = true then
            agregar_arista hav g x.2 y.2
          else some g) with _ | g1 <;> rw [hstep] at h
      · cases h
      · have hsym1 : Simetrica g1 := by
          by_cases hcond : (dictGet g.coords x.2).isSome = true ∧
              (dictGet g.coords y.2).isSome = true
          · rw [if_pos hcond] at hstep
            exact agregar_preserva_simetria hav g g1 x.2 y.2 hsym hstep
          · rw [if_neg hcond] at hstep
            injection hstep with hstep
            exact hstep ▸ hsym
        exact ih g1 g' hsym1 h

theorem construir_foldl_none (hav : Coord → Coord → ℚ)
    (grupos : List (String × List (Int × String))) :
    grupos.foldl (construir_paso hav) none = none := by
  induction grupos with
  | nil => rfl
  | cons p rest ih => simpa [construir_paso] using ih

theorem construir_fold_simetria (hav : Coord → Coord → ℚ)
    (grupos : List (String × List (Int × String))) :
    ∀ g g', Simetrica g → grupos.foldl (construir_paso hav) (some g) = some g' →
      Simetrica g' := by
  induction grupos with
  | nil =>
    intro g g' hsym h
    injection h with h
    exact h ▸ hsym
  | cons p rest ih =>
    intro g g' hsym h
    rw [List.foldl_cons] at h
    rcases hstep : construir_paso hav (some g) p with _ | g1 <;> rw [hstep] at h
    · rw [construir_foldl_none hav rest] at h
      cases h
    · have hsym1 : Simetrica g1 := by
        unfold construir_paso procesar_ruta at hstep
        exact conectar_preserva_simetria hav (pysort p.2) g g1 hsym hstep
      exact ih g1 g' hsym1 h

/-- C3 (amended): edge symmetry holds after topology building
(unconditionally), and after the cache merge provided the cache does not map
the two directional keys of one coordinate pair to different entries (the
`Coherente` condition).  The second part is exactly what the counterexample
forces: with both directional keys present and different, the merge breaks
symmetry. -/
theorem C3_simetria :
    (∀ (hav : Coord → Coord → ℚ) (filasE : List FilaEstacion) (filasR : List FilaRuta)
       (g' : Graph),
       cargar_rutas hav (cargar_estaciones Graph.empty filasE) filasR = Except.ok g' →
       Simetrica g') ∧
    (∀ (g : Graph) (cache : Cache) (g' : Graph), Simetrica g → Coherente cache →
       cargar_cache_aristas g cache = Except.ok g' → Simetrica g') := by
  constructor
  · intro hav filasE filasR g' h
    have hbase : Simetrica Graph.empty := by
      intro x y e hxy
      simp [Graph.empty, dictGet2, dictGet] at hxy
    have hest : Simetrica (cargar_estaciones Graph.empty filasE) :=
      estaciones_preserva_simetria Graph.empty filasE hbase
    unfold cargar_rutas at h
    split at h
    · exact Except.noConfusion h
    · split at h
      · exact Except.noConfusion h
      · injection h with h
        subst h
        exact construir_fold_simetria hav _ _ _ hest (by assumption)
  · intro g cache g' hsym hco h
    exact fusion_preserva_simetria g cache g' hsym hco h

/-- C3 counterexample: the cache `cacheC3` contains both directional keys of
the coordinate pair of the A-B edge with distances 1 and 2; after the merge
the two directions of the edge carry different distances, so symmetry is
broken on a finished graph. -/
theorem C3_contraejemplo :
    cargar_cache_aristas gABe cacheC3 = Except.ok gC3res ∧
    dictGet2 gC3res.aristas "A" "B" = some { dist := 1, time := none } ∧
    dictGet2 gC3res.aristas "B" "A" = some { dist := 2, time := none } ∧
    ({ dist := 1, time := none } : Arista) ≠ { dist := 2, time := none } :=
  ⟨gC3res_cert, by decide, by decide, by decide⟩

/-- C3 witness. -/
theorem C3_testigo :
    (cargar_rutas hav7 (cargar_estaciones Graph.empty filasEstAB) filasRutAB =
        Except.ok gABe ∧
      cargar_cache_aristas gABe cacheC4 = Except.ok gC4res) ∧
    Simetrica gABe ∧ Simetrica gC4res :=
  ⟨⟨by rw [show cargar_estaciones Graph.empty filasEstAB = gAB from by decide]
       exact gABe_cert,
    gC4res_cert⟩,
   C3_simetria.1 hav7 filasEstAB filasRutAB gABe
     (by rw [show cargar_estaciones Graph.empty filasEstAB = gAB from by decide]
         exact gABe_cert),
   C3_simetria.2 gABe cacheC4 gC4res
     (simetricaDec_simetrica gABe (by decide))
     (coherenteDec_coherente cacheC4 (by decide))
     gC4res_cert⟩

/- ----------------------------------------------------------------
C10.  The three maps share their keys; registered stations are safe
solver endpoints. -/

theorem mem_keys_dictSet {κ α : Type} [DecidableEq κ] (l : List (κ × α)) (k' : κ) (v : α)
    (k : κ) (h : k ∈ l.map Prod.fst) : k ∈ (dictSet l k' v).map Prod.fst := by
  induction l with
  | nil => simp at h
  | cons p rest ih =>
    simp only [List.map_cons, List.mem_cons] at h
    by_cases hp : p.1 = k'
    · rcases h with h | h
      · simp [dictSet, hp, hp ▸ h]
      · simp [dictSet, hp, h]
    · rcases h with h | h
      · simp [dictSet, hp, h]
      · simp [dictSet, hp, ih h]

theorem mem_keys_dictSet_self {κ α : Type} [DecidableEq κ] (l : List (κ × α)) (k : κ)
    (v : α) : k ∈ (dictSet l k v).map Prod.fst :=
  mem_keys_of_dictGet (dictGet_dictSet_self l k v)

theorem dictGet_setdefault_mono {κ α : Type} [DecidableEq κ] (l : List (κ × α))
    (k k' : κ) (v' v : α) (h : dictGet l k = some v) :
    dictGet (dictSetdefault l k' v') k = some v := by
  unfold dictSetdefault
  rcases hk' : dictGet l k' with _ | w
  · exact dictGet_append_some _ h
  · exact h

theorem mem_dictSetdefault {κ α : Type} [DecidableEq κ] (l : List (κ × α)) (k : κ) (v : α)
    (p : κ × α) : p ∈ dictSetdefault l k v → p ∈ l ∨ p = (k, v) := by
  unfold dictSetdefault
  rcases hn : dictGet l k with _ | w
  · show p ∈ l ++ [(k, v)] → _
    intro hp
    rcases List.mem_append.mp hp with hp | hp
    · exact Or.inl hp
    · simp at hp
      exact Or.inr hp
  · exact Or.inl

theorem registrar_vacio (g : Graph) (fila : FilaEstacion)
    (h : ∀ p ∈ g.aristas, p.2 = ([] : List (String × Arista))) :
    ∀ p ∈ (registrar_estacion g fila).aristas, p.2 = [] := by
  rcases hc : fila.coords with _ | c
  · unfold registrar_estacion
    rw [hc]
    exact h
  · intro p hp
    have hp' : p ∈ dictSetdefault g.aristas (pyStrip fila.nombre) [] := by
      have : (registrar_estacion g fila).aristas =
          dictSetdefault g.aristas (pyStrip fila.nombre) [] := by
        unfold registrar_estacion
        rw [hc]
      exact this ▸ hp
    rcases mem_dictSetdefault _ _ _ _ hp' with hp' | hp'
    · exact h p hp'
    · rw [hp']

theorem registrar_persiste (g : Graph) (fila : FilaEstacion) (n : String)
    (h1 : n ∈ g.nodos.map Prod.fst) (h2 : n ∈ g.coords.map Prod.fst)
    (h3 : dictGet g.aristas n = some []) :
    n ∈ (registrar_estacion g fila).nodos.map Prod.fst ∧
    n ∈ (registrar_estacion g fila).coords.map Prod.fst ∧
    dictGet (registrar_estacion g fila).aristas n = some [] := by
  unfold registrar_estacion
  rcases fila.coords with _ | c
  · exact ⟨h1, h2, h3⟩
  · exact ⟨mem_keys_dictSet _ _ _ _ h1, mem_keys_dictSet _ _ _ _ h2,
      dictGet_setdefault_mono _ _ _ _ _ h3⟩

theorem estaciones_persiste (filas : List FilaEstacion) : ∀ (g : Graph) (n : String),
    n ∈ g.nodos.map Prod.fst → n ∈ g.coords.map Prod.fst →
    dictGet g.aristas n = some [] →
    n ∈ (cargar_estaciones g filas).nodos.map Prod.fst ∧
    n ∈ (cargar_estaciones g filas).coords.map Prod.fst ∧
    dictGet (cargar_estaciones g filas).aristas n = some [] := by
  induction filas with
  | nil => exact fun g n h1 h2 h3 => ⟨h1, h2, h3⟩
  | cons fila rest ih =>
    intro g n h1 h2 h3
    obtain ⟨k1, k2, k3⟩ := registrar_persiste g fila n h1 h2 h3
    exact ih (registrar_estacion g fila) n k1 k2 k3

theorem estaciones_vacio (filas : List FilaEstacion) : ∀ (g : Graph),
    (∀ p ∈ g.aristas, p.2 = ([] : List (String × Arista))) →
    ∀ p ∈ (cargar_estaciones g filas).aristas, p.2 = [] := by
  induction filas with
  | nil => exact fun g h => h
  | cons fila rest ih =>
    intro g h
    exact ih (registrar_estacion g fila) (registrar_vacio g fila h)

theorem registrar_establece (g : Graph) (fila : FilaEstacion) (c : Coord)
    (hv : ∀ p ∈ g.aristas, p.2 = ([] : List (String × Arista)))
    (hc : fila.coords = some c) :
    pyStrip fila.nombre ∈ (registrar_estacion g fila).nodos.map Prod.fst ∧
    pyStrip fila.nombre ∈ (registrar_estacion g fila).coords.map Prod.fst ∧
    dictGet (registrar_estacion g fila).aristas (pyStrip fila.nombre) = some [] := by
  unfold registrar_estacion
  rw [hc]
  refine ⟨mem_keys_dictSet_self _ _ _, mem_keys_dictSet_self _ _ _, ?_⟩
  show dictGet (dictSetdefault g.aristas (pyStrip fila.nombre) []) (pyStrip fila.nombre) =
    some []
  unfold dictSetdefault
  rcases hn : dictGet g.aristas (pyStrip fila.nombre) with _ | adj
  · show dictGet (g.aristas ++ [(pyStrip fila.nombre, [])]) (pyStrip fila.nombre) = some []
    rw [dictGet_append_none _ hn]
    simp [dictGet]
  · have hadj : adj = [] := hv (pyStrip fila.nombre, adj) (dictGet_mem hn)
    subst hadj
    show dictGet g.aristas (pyStrip fila.nombre) = some []
    exact hn

theorem estaciones_establece (filas : List FilaEstacion) : ∀ (g : Graph),
    (∀ p ∈ g.aristas, p.2 = ([] : List (String × Arista))) →
    ∀ fila ∈ filas, ∀ c, fila.coords = some c →
    pyStrip fila.nombre ∈ (cargar_estaciones g filas).nodos.map Prod.fst ∧
    pyStrip fila.nombre ∈ (cargar_estaciones g filas).coords.map Prod.fst ∧
    dictGet (cargar_estaciones g filas).aristas (pyStrip fila.nombre) = some [] := by
  induction filas with
  | nil =>
    intro g hv fila hf
    simp at hf
  | cons f rest ih =>
    intro g hv fila hf c hc
    rcases List.mem_cons.mp hf with hf | hf
    · subst hf
      obtain ⟨k1, k2, k3⟩ := registrar_establece g fila c hv hc
      exact estaciones_persiste rest (registrar_estacion g fila) _ k1 k2 k3
    · exact ih (registrar_estacion g f) (registrar_vacio g f hv) fila hf c hc

theorem agregar_claves (hav : Coord → Coord → ℚ) (g g' : Graph) (a b : String)
    (h : agregar_arista hav g a b = some g') :
    g'.aristas.map Prod.fst = g.aristas.map Prod.fst := by
  unfold agregar_arista at h
  rcases hc1 : dictGet g.coords a with _ | c1 <;> rw [hc1] at h
  · rcases dictGet g.coords b with _ | c2 <;> cases h
  rcases hc2 : dictGet g.coords b with _ | c2 <;> rw [hc2] at h
  · cases h
  simp only at h
  rcases ha : dictGet g.aristas a with _ | adjA <;> rw [ha] at h
  · cases h
  simp only at h
  rcases hb : dictGet (dictSet g.aristas a
      (dictSet adjA b { dist := hav c1 c2 / 1000, time := none })) b with _ | adjB <;>
    rw [hb] at h
  · cases h
  simp only at h
  injection h with h
  subst h
  show (dictSet _ b _).map Prod.fst = _
  rw [keys_dictSet_of_mem _ _ _ (mem_keys_of_dictGet hb),
    keys_dictSet_of_mem _ _ _ (mem_keys_of_dictGet ha)]

theorem conectar_claves (hav : Coord → Coord → ℚ) (l : List (Int × String)) :
    ∀ g g', conectar_consecutivas hav g l = some g' →
      g'.aristas.map Prod.fst = g.aristas.map Prod.fst := by
  induction l with
  | nil =>
    intro g g' h
    injection h with h
    rw [← h]
  | cons x rest ih =>
    match rest, ih with
    | [], _ =>
      intro g g' h
      injection h with h
      rw [← h]
    | y :: rest', ih =>
      intro g g' h
      simp only [conectar_consecutivas] at h
      rcases hstep : (if (dictGet g.coords x.2).isSome = true ∧
          (dictGet g.coords y.2).isSome = true then
            agregar_arista hav g x.2 y.2
          else some g) with _ | g1 <;> rw [hstep] at h
      · cases h
      · have hk1 : g1.aristas.map Prod.fst = g.aristas.map Prod.fst := by
          by_cases hcond : (dictGet g.coords x.2).isSome = true ∧
              (dictGet g.coords y.2).isSome = true
          · rw [if_pos hcond] at hstep
            exact agregar_claves hav g g1 x.2 y.2 hstep
          · rw [if_neg hcond] at hstep
            injection hstep with hstep
            rw [← hstep]
        rw [ih g1 g' h, hk1]

theorem construir_fold_claves (hav : Coord → Coord → ℚ)
    (grupos : List (String × List (Int × String))) :
    ∀ g g', grupos.foldl (construir_paso hav) (some g) = some g' →
      g'.aristas.map Prod.fst = g.aristas.map Prod.fst := by
  induction grupos with
  | nil =>
    intro g g' h
    injection h with h
    rw [← h]
  | cons p rest ih =>
    intro g g' h
    rw [List.foldl_cons] at h
    rcases hstep : construir_paso hav (some g) p with _ | g1 <;> rw [hstep] at h
    · rw [construir_foldl_none hav rest] at h
      cases h
    · have hk1 : g1.aristas.map Prod.fst = g.aristas.map Prod.fst := by
        unfold construir_paso procesar_ruta at hstep
        exact conectar_claves hav (pysort p.2) g g1 hstep
      rw [ih g1 g' h, hk1]

theorem rutas_claves (hav : Coord → Coord → ℚ) (g : Graph) (filas : List FilaRuta)
    (g' : Graph) (h : cargar_rutas hav g filas = Except.ok g') :
    g'.aristas.map Prod.fst = g.aristas.map Prod.fst := by
  unfold cargar_rutas at h
  split at h
  · exact Except.noConfusion h
  · split at h
    · exact Except.noConfusion h
    · injection h with h
      subst h
      exact construir_fold_claves hav _ _ _ (by assumption)

theorem fusion_claves (g : Graph) (cache : Cache) (g' : Graph)
    (h : cargar_cache_aristas g cache = Except.ok g') :
    g'.aristas.map Prod.fst = g.aristas.map Prod.fst := by
  unfold cargar_cache_aristas at h
  rcases hf : fusionar cache g.coords g.aristas with _ | l <;> rw [hf] at h
  · cases h
  · injection h with h
    subst h
    show l.map Prod.fst = _
    rw [fusionar_eq_map cache g.coords g.aristas l hf, List.map_map]
    rfl

/- ----------------------------------------------------------------
Heap-order lemmas (`pqLe`, `popMin`). -/

theorem pqLe_iff (x y : ℚ × String) : pqLe x y = true ↔
    x.1 < y.1 ∨ (x.1 = y.1 ∧ pyStrLt y.2 x.2 = false) := by
  unfold pqLe
  rcases lt_trichotomy x.1 y.1 with h | h | h
  · simp [h]
  · have hnx : ¬ x.1 < y.1 := h ▸ lt_irrefl x.1
    have hny : ¬ y.1 < x.1 := h ▸ lt_irrefl x.1
    rw [if_neg hnx, if_neg hny]
    rcases hs : pyStrLt x.2 y.2 with _ | _
    · rcases ht : pyStrLt y.2 x.2 with _ | _ <;> simp [hs, ht, h, hnx]
    · have ht : pyStrLt y.2 x.2 = false := pyStrLt_asymm hs
      simp [hs, ht, h, hnx]
  · have hnx : ¬ x.1 < y.1 := not_lt.mpr (le_of_lt h)
    have hne : x.1 ≠ y.1 := (ne_of_lt h).symm
    rw [if_neg hnx, if_pos h]
    simp [hnx, hne]

theorem pqLe_refl (x : ℚ × String) : pqLe x x = true := by
  rw [pqLe_iff]
  exact Or.inr ⟨rfl, pyStrLtAux_irrefl _⟩

theorem pqLe_total (x y : ℚ × String) : pqLe x y = true ∨ pqLe y x = true := by
  rw [pqLe_iff, pqLe_iff]
  rcases lt_trichotomy x.1 y.1 with h | h | h
  · exact Or.inl (Or.inl h)
  · rcases ht : pyStrLt y.2 x.2 with _ | _
    · exact Or.inl (Or.inr ⟨h, rfl⟩)
    · exact Or.inr (Or.inr ⟨h.symm, pyStrLt_asymm ht⟩)
  · exact Or.inr (Or.inl h)

theorem pqLe_trans (x y z : ℚ × String) (h1 : pqLe x y = true)
    (h2 : pqLe y z = true) : pqLe x z = true := by
  rw [pqLe_iff] at h1 h2 ⊢
  rcases h1 with h1 | ⟨he1, hs1⟩
  · rcases h2 with h2 | ⟨he2, _⟩
    · exact Or.inl (lt_trans h1 h2)
    · exact Or.inl (he2 ▸ h1)
  · rcases h2 with h2 | ⟨he2, hs2⟩
    · exact Or.inl (he1 ▸ h2)
    · exact Or.inr ⟨he1.trans he2, pyStrLt_negtrans hs1 hs2⟩

theorem pqLe_key (x y : ℚ × String) (h : pqLe x y = true) : x.1 ≤ y.1 := by
  rw [pqLe_iff] at h
  rcases h with h | ⟨h, _⟩
  · exact le_of_lt h
  · exact le_of_eq h

theorem popMin_eq_none {l : List (ℚ × String)} : popMin l = none ↔ l = [] := by
  cases l with
  | nil => simp [popMin]
  | cons x xs =>
    simp only [popMin]
    rcases popMin xs with _ | ⟨m, rest⟩
    · simp
    · by_cases h : pqLe x m = true <;> simp [h]

theorem popMin_perm {l : List (ℚ × String)} {m : ℚ × String} {rest : List (ℚ × String)}
    (h : popMin l = some (m, rest)) : l.Perm (m :: rest) := by
  induction l generalizing m rest with
  | nil => simp [popMin] at h
  | cons x xs ih =>
    simp only [popMin] at h
    rcases hxs : popMin xs with _ | ⟨m0, rest0⟩ <;> simp only [hxs] at h
    · injection h with h
      injection h with h1 h2
      subst h1
      subst h2
      rw [popMin_eq_none.mp hxs]
    · by_cases hle : pqLe x m0 = true
      · rw [if_pos hle] at h
        injection h with h
        injection h with h1 h2
        subst h1
        subst h2
        exact List.Perm.refl _
      · rw [if_neg hle] at h
        injection h with h
        injection h with h1 h2
        subst h1
        subst h2
        exact ((ih hxs).cons x).trans (List.Perm.swap m0 x rest0)

theorem popMin_min {l : List (ℚ × String)} {m : ℚ × String} {rest : List (ℚ × String)}
    (h : popMin l = some (m, rest)) : ∀ y ∈ l, pqLe m y = true := by
  induction l generalizing m rest with
  | nil => simp [popMin] at h
  | cons x xs ih =>
    simp only [popMin] at h
    rcases hxs : popMin xs with _ | ⟨m0, rest0⟩ <;> simp only [hxs] at h
    · injection h with h
      injection h with h1 h2
      subst h1
      intro y hy
      rw [popMin_eq_none.mp hxs] at hy
      simp at hy
      rw [hy]
      exact pqLe_refl _
    · by_cases hle : pqLe x m0 = true
      · rw [if_pos hle] at h
        injection h with h
        injection h with h1 h2
        subst h1
        intro y hy
        rcases List.mem_cons.mp hy with hy | hy
        · rw [hy]
          exact pqLe_refl _
        · exact pqLe_trans _ m0 y hle (ih hxs y hy)
      · rw [if_neg hle] at h
        injection h with h
        injection h with h1 h2
        subst h1
        intro y hy
        rcases List.mem_cons.mp hy with hy | hy
        · rw [hy]
          exact (pqLe_total x m0).resolve_left hle
        · exact ih hxs y hy

theorem popMin_mem {l : List (ℚ × String)} {m : ℚ × String} {rest : List (ℚ × String)}
    (h : popMin l = some (m, rest)) : m ∈ l :=
  (popMin_perm h).symm.subset (List.mem_cons_self m rest)

theorem popMin_rest_subset {l : List (ℚ × String)} {m : ℚ × String}
    {rest : List (ℚ × String)} (h : popMin l = some (m, rest)) : ∀ y ∈ rest, y ∈ l :=
  fun _y hy => (popMin_perm h).symm.subset (List.mem_cons_of_mem m hy)

theorem keys_map_const {α : Type} (l : List (String × List (String × Arista))) (c : α) :
    ((l.map (fun p => (p.1, c))).map Prod.fst) = l.map Prod.fst := by
  rw [List.map_map]
  rfl

theorem relajar_claves (u : String) (V : List String) (l : List (String × Arista)) :
    ∀ dist prev pq,
    dist.map Prod.fst = V → prev.map Prod.fst = V →
    (∀ q ∈ l, q.1 ∈ V) → u ∈ V →
    (∀ en ∈ pq, (en : ℚ × String).2 ∈ V) →
    (∀ v pu, dictGet prev v = some (some pu) → pu ∈ V) →
    ∃ dist' prev' pq', relajar u l dist prev pq = some (dist', prev', pq') ∧
      dist'.map Prod.fst = V ∧ prev'.map Prod.fst = V ∧
      (∀ en ∈ pq', (en : ℚ × String).2 ∈ V) ∧
      (∀ v pu, dictGet prev' v = some (some pu) → pu ∈ V) := by
  induction l with
  | nil =>
    intro dist prev pq h1 h2 _ _ h5 h6
    exact ⟨dist, prev, pq, rfl, h1, h2, h5, h6⟩
  | cons q rest ih =>
    obtain ⟨v, e⟩ := q
    intro dist prev pq h1 h2 h3 h4 h5 h6
    have hv : v ∈ V := h3 (v, e) (List.mem_cons_self _ _)
    obtain ⟨du, hdu⟩ := dictGet_isSome_of_mem dist u (h1 ▸ h4)
    obtain ⟨dv, hdv⟩ := dictGet_isSome_of_mem dist v (h1 ▸ hv)
    have h3' : ∀ q ∈ rest, (q : String × Arista).1 ∈ V :=
      fun q hq => h3 q (List.mem_cons_of_mem _ hq)
    rcases du with _ | duq
    · have hstep : relajar u ((v, e) :: rest) dist prev pq = relajar u rest dist prev pq := by
        simp only [relajar, hdu, hdv]
      rw [hstep]
      exact ih dist prev pq h1 h2 h3' h4 h5 h6
    · by_cases hlt : ltInf (duq + e.dist) dv = true
      · have hstep : relajar u ((v, e) :: rest) dist prev pq =
            relajar u rest (dictSet dist v (some (duq + e.dist)))
              (dictSet prev v (some u)) (pq ++ [(duq + e.dist, v)]) := by
          simp only [relajar, hdu, hdv, hlt, if_true]
        rw [hstep]
        apply ih
        · rw [keys_dictSet_of_mem _ _ _ (h1 ▸ hv), h1]
        · rw [keys_dictSet_of_mem _ _ _ (h2 ▸ hv), h2]
        · exact h3'
        · exact h4
        · intro en hen
          rcases List.mem_append.mp hen with hen | hen
          · exact h5 en hen
          · simp at hen
            rw [hen]
            exact hv
        · intro w pu hw
          by_cases hwv : w = v
          · subst hwv
            rw [dictGet_dictSet_self] at hw
            injection hw with hw
            injection hw with hw
            rw [← hw]
            exact h4
          · rw [dictGet_dictSet_ne _ _ _ _ hwv] at hw
            exact h6 w pu hw
      · rw [Bool.not_eq_true] at hlt
        have hstep : relajar u ((v, e) :: rest) dist prev pq = relajar u rest dist prev pq := by
          simp [relajar, hdu, hdv, hlt]
        rw [hstep]
        exact ih dist prev pq h1 h2 h3' h4 h5 h6

theorem bucle_sin_keyerror (adj : List (String × List (String × Arista))) (destino : String)
    (hsub : ∀ p ∈ adj, ∀ q ∈ p.2, (q : String × Arista).1 ∈ adj.map Prod.fst) :
    ∀ (fuel : ℕ) (pq : List (ℚ × String)) (dist : List (String × Option ℚ))
      (prev : List (String × Option String)),
    dist.map Prod.fst = adj.map Prod.fst → prev.map Prod.fst = adj.map Prod.fst →
    (∀ en ∈ pq, (en : ℚ × String).2 ∈ adj.map Prod.fst) →
    (∀ v pu, dictGet prev v = some (some pu) → pu ∈ adj.map Prod.fst) →
    dijkstra_loop adj destino fuel pq dist prev = SalidaBucle.fuelOut ∨
    ∃ dist' prev', dijkstra_loop adj destino fuel pq dist prev = SalidaBucle.done dist' prev' ∧
      dist'.map Prod.fst = adj.map Prod.fst ∧ prev'.map Prod.fst = adj.map Prod.fst ∧
      (∀ v pu, dictGet prev' v = some (some pu) → pu ∈ adj.map Prod.fst) := by
  intro fuel
  induction fuel with
  | zero =>
    intro pq dist prev h1 h2 h3 h4
    rcases hp : popMin pq with _ | ⟨⟨d, u⟩, pq'⟩
    · exact Or.inr ⟨dist, prev, by simp only [dijkstra_loop, hp], h1, h2, h4⟩
    · exact Or.inl (by simp only [dijkstra_loop, hp])
  | succ n ih =>
    intro pq dist prev h1 h2 h3 h4
    rcases hp : popMin pq with _ | ⟨⟨d, u⟩, pq'⟩
    · exact Or.inr ⟨dist, prev, by simp only [dijkstra_loop, hp], h1, h2, h4⟩
    · have hu : u ∈ adj.map Prod.fst := h3 (d, u) (popMin_mem hp)
      have hpq' : ∀ en ∈ pq', (en : ℚ × String).2 ∈ adj.map Prod.fst :=
        fun en hen => h3 en (popMin_rest_subset hp en hen)
      by_cases hud : u = destino
      · exact Or.inr ⟨dist, prev, by simp only [dijkstra_loop, hp, hud, if_true], h1, h2, h4⟩
      · obtain ⟨du, hdu⟩ := dictGet_isSome_of_mem dist u (h1 ▸ hu)
        by_cases hst : some d = du
        · obtain ⟨ladj, hladj⟩ := dictGet_isSome_of_mem adj u hu
          obtain ⟨dist', prev', pq'', hrel, k1, k2, k3, k4⟩ :=
            relajar_claves u (adj.map Prod.fst) ladj dist prev pq' h1 h2
              (fun q hq => hsub (u, ladj) (dictGet_mem hladj) q hq) hu hpq' h4
          have hstep : dijkstra_loop adj destino (n + 1) pq dist prev =
              dijkstra_loop adj destino n pq'' dist' prev' := by
            simp only [dijkstra_loop, hp, hud, if_false, hdu, hst, if_true, hladj, hrel]
          rw [hstep]
          exact ih pq'' dist' prev' k1 k2 k3 k4
        · have hstep : dijkstra_loop adj destino (n + 1) pq dist prev =
              dijkstra_loop adj destino n pq' dist prev := by
            simp only [dijkstra_loop, hp, hud, if_false, hdu, hst, if_false]
          rw [hstep]
          exact ih pq' dist prev h1 h2 hpq' h4

theorem recon_sin_keyerror (prev : List (String × Option String)) (V : List String)
    (hk : prev.map Prod.fst = V) (hv : ∀ v pu, dictGet prev v = some (some pu) → pu ∈ V) :
    ∀ (fuel : ℕ) (ox : Option String), (∀ s, ox = some s → s ∈ V) →
      reconstruir prev fuel ox ≠ SalidaRecon.keyError := by
  intro fuel
  induction fuel with
  | zero =>
    intro ox hox
    rcases ox with _ | x
    · simp [reconstruir]
    · by_cases hx : x = "" <;> simp [reconstruir, hx]
  | succ n ih =>
    intro ox hox
    rcases ox with _ | x
    · simp [reconstruir]
    · by_cases hx : x = ""
      · simp [reconstruir, hx]
      · obtain ⟨x', hx'⟩ := dictGet_isSome_of_mem prev x (hk ▸ hox x rfl)
        have hx'V : ∀ s, x' = some s → s ∈ V := by
          intro s hs
          exact hv x s (hs ▸ hx')
        have hstep : reconstruir prev (n + 1) (some x) =
            match reconstruir prev n x' with
            | SalidaRecon.done camino => SalidaRecon.done (x :: camino)
            | r => r := by
          simp only [reconstruir, hx, if_false, hx']
        rw [hstep]
        rcases hres : reconstruir prev n x' with _ | _ | camino
        · exact absurd hres (ih x' hx'V)
        · simp
        · simp

/-- C10: (1) every station row with parseable coordinates is registered
simultaneously in `nodos`, `coords` and `aristas` (with an empty neighbour
map, loading from a fresh graph); (2) a successful route load never adds or
removes `aristas` keys; (3) neither does a successful cache merge; (4) for a
graph whose neighbour references all are `aristas` keys, querying the solver
between two registered stations never raises `KeyError` — in particular a
registered station with no edges is a valid endpoint. -/
theorem C10_claves_sincronizadas :
    (∀ (filas : List FilaEstacion) (fila : FilaEstacion) (c : Coord), fila ∈ filas →
       fila.coords = some c →
       pyStrip fila.nombre ∈ (cargar_estaciones Graph.empty filas).nodos.map Prod.fst ∧
       pyStrip fila.nombre ∈ (cargar_estaciones Graph.empty filas).coords.map Prod.fst ∧
       dictGet (cargar_estaciones Graph.empty filas).aristas (pyStrip fila.nombre) =
         some []) ∧
    (∀ (hav : Coord → Coord → ℚ) (g : Graph) (filas : List FilaRuta) (g' : Graph),
       cargar_rutas hav g filas = Except.ok g' →
       g'.aristas.map Prod.fst = g.aristas.map Prod.fst) ∧
    (∀ (g : Graph) (cache : Cache) (g' : Graph),
       cargar_cache_aristas g cache = Except.ok g' →
       g'.aristas.map Prod.fst = g.aristas.map Prod.fst) ∧
    (∀ (g : Graph) (origen destino : String) (fuel : ℕ),
       (∀ p ∈ g.aristas, ∀ q ∈ p.2, (q : String × Arista).1 ∈ g.aristas.map Prod.fst) →
       origen ∈ g.aristas.map Prod.fst → destino ∈ g.aristas.map Prod.fst →
       ruta_mas_corta g fuel origen destino ≠ ResultadoRuta.keyError) := by
  refine ⟨?_, ?_, ?_, ?_⟩
  · intro filas fila c hf hc
    exact estaciones_establece filas Graph.empty (by simp [Graph.empty]) fila hf c hc
  · exact rutas_claves
  · exact fusion_claves
  · intro g origen destino fuel hsub ho hd
    have hd1 : (dictSet (g.aristas.map fun p => (p.1, (none : Option ℚ)))
        origen (some 0)).map Prod.fst = g.aristas.map Prod.fst := by
      rw [keys_dictSet_of_mem _ _ _ (by rw [keys_map_const]; exact ho), keys_map_const]
    have hp1 : (g.aristas.map fun p => (p.1, (none : Option String))).map Prod.fst =
        g.aristas.map Prod.fst := keys_map_const _ _
    have hprev0 : ∀ v pu, dictGet (g.aristas.map fun p => (p.1, (none : Option String)))
        v = some (some pu) → pu ∈ g.aristas.map Prod.fst := by
      intro v pu hv
      rw [dictGet_map_snd g.aristas (fun _ _ => (none : Option String)) v] at hv
      rcases h : dictGet g.aristas v with _ | adj <;> rw [h] at hv <;> simp at hv
    rcases bucle_sin_keyerror g.aristas destino hsub fuel [(0, origen)]
        (dictSet (g.aristas.map fun p => (p.1, (none : Option ℚ))) origen (some 0))
        (g.aristas.map fun p => (p.1, (none : Option String))) hd1 hp1
        (by intro en hen; simp at hen; rw [hen]; exact ho) hprev0 with hout | hdone
    · unfold ruta_mas_corta
      rw [hout]
      simp
    · obtain ⟨dist', prev', hdone, k1, k2, k4⟩ := hdone
      unfold ruta_mas_corta
      rw [hdone]
      obtain ⟨dd, hdd⟩ := dictGet_isSome_of_mem dist' destino (k1 ▸ hd)
      simp only [hdd]
      rcases dd with _ | dd
      · simp
      · have hrec := recon_sin_keyerror prev' (g.aristas.map Prod.fst) k2 k4 fuel
          (some destino) (by intro s hs; injection hs with hs; exact hs ▸ hd)
        rcases hres : reconstruir prev' fuel (some destino) with _ | _ | camino
        · exact absurd hres hrec
        · simp
        · simp

/-- C10 witness: on the finished edge-free two-station graph, both
registered stations are valid solver endpoints and the certified build steps
preserve keys. -/
theorem C10_testigo :
    ((⟨"A", some (0, 0)⟩ : FilaEstacion) ∈ filasEstAB ∧
     (⟨"A", some (0, 0)⟩ : FilaEstacion).coords = some (0, 0) ∧
     pyStrip "A" ∈ (cargar_estaciones Graph.empty filasEstAB).nodos.map Prod.fst ∧
     dictGet (cargar_estaciones Graph.empty filasEstAB).aristas (pyStrip "A") = some []) ∧
    gABe.aristas.map Prod.fst = gAB.aristas.map Prod.fst ∧
    gC4res.aristas.map Prod.fst = gABe.aristas.map Prod.fst ∧
    ruta_mas_corta gAB 5 "A" "B" ≠ ResultadoRuta.keyError :=
  ⟨⟨by decide, by decide,
    (C10_claves_sincronizadas.1 filasEstAB ⟨"A", some (0, 0)⟩ (0, 0) (by decide) rfl).1,
    (C10_claves_sincronizadas.1 filasEstAB ⟨"A", some (0, 0)⟩ (0, 0) (by decide) rfl).2.2⟩,
   C10_claves_sincronizadas.2.1 hav7 gAB filasRutAB gABe gABe_cert,
   C10_claves_sincronizadas.2.2.1 gABe cacheC4 gC4res gC4res_cert,
   C10_claves_sincronizadas.2.2.2 gAB "A" "B" 5 (by decide) (by decide) (by decide)⟩

theorem popMin_mem_rest_of_ne {l : List (ℚ × String)} {m : ℚ × String}
    {rest : List (ℚ × String)} (h : popMin l = some (m, rest)) {x : ℚ × String}
    (hx : x ∈ l) (hne : x ≠ m) : x ∈ rest := by
  rcases List.mem_cons.mp ((popMin_perm h).mem_iff.mp hx) with h' | h'
  · exact absurd h' hne
  · exact h'

theorem popMin_length {l : List (ℚ × String)} {m : ℚ × String}
    {rest : List (ℚ × String)} (h : popMin l = some (m, rest)) :
    l.length = rest.length + 1 := by
  have := (popMin_perm h).length_eq
  simpa using this

theorem rankOr_lt_length {S : List String} {x : String} (h : x ∈ S) :
    rankOr S x < S.length := by
  induction S with
  | nil => simp at h
  | cons y rest ih =>
    by_cases hy : y = x
    · simp [rankOr, hy]
    · rcases List.mem_cons.mp h with h' | h'
      · exact absurd h'.symm hy
      · simp only [rankOr, hy, if_false, List.length_cons]
        exact Nat.succ_lt_succ (ih h')

theorem rankOr_append_of_mem {S : List String} {x : String} (T : List String) (h : x ∈ S) :
    rankOr (S ++ T) x = rankOr S x := by
  induction S with
  | nil => simp at h
  | cons y rest ih =>
    by_cases hy : y = x
    · simp [rankOr, hy]
    · rcases List.mem_cons.mp h with h' | h'
      · exact absurd h'.symm hy
      · simp [rankOr, hy, ih h']

theorem rankOr_append_self {S : List String} {u : String} (h : u ∉ S) :
    rankOr (S ++ [u]) u = S.length := by
  induction S with
  | nil => simp [rankOr]
  | cons y rest ih =>
    have hy : y ≠ u := fun he => h (by rw [he]; exact List.mem_cons_self _ _)
    simp [rankOr, hy, ih (fun hm => h (List.mem_cons_of_mem _ hm))]

theorem degSum_cons (p : String × List (String × Arista))
    (rest : List (String × List (String × Arista))) (S : List String) :
    degSum (p :: rest) S = (if p.1 ∈ S then 0 else p.2.length) + degSum rest S := by
  unfold degSum
  by_cases hS : p.1 ∈ S
  · simp [List.filter_cons, hS]
  · simp [List.filter_cons, hS]

theorem degSum_congr (adj : List (String × List (String × Arista))) (S T : List String)
    (h : ∀ p ∈ adj, ((p : String × List (String × Arista)).1 ∈ S ↔ p.1 ∈ T)) :
    degSum adj S = degSum adj T := by
  induction adj with
  | nil => rfl
  | cons p rest ih =>
    rw [degSum_cons, degSum_cons, ih (fun q hq => h q (List.mem_cons_of_mem _ hq))]
    have hp := h p (List.mem_cons_self _ _)
    by_cases hS : p.1 ∈ S
    · rw [if_pos hS, if_pos (hp.mp hS)]
    · rw [if_neg hS, if_neg (fun hT => hS (hp.mpr hT))]

theorem degSum_settle (adj : List (String × List (String × Arista))) (u : String)
    (l : List (String × Arista)) (S : List String) (hnd : (adj.map Prod.fst).Nodup)
    (hget : dictGet adj u = some l) (hS : u ∉ S) :
    degSum adj S = degSum adj (S ++ [u]) + l.length := by
  induction adj with
  | nil => simp [dictGet] at hget
  | cons p rest ih =>
    rw [degSum_cons, degSum_cons]
    simp only [List.map_cons, List.nodup_cons] at hnd
    by_cases hp : p.1 = u
    · have hl : l = p.2 := by
        rcases p with ⟨k, v⟩
        simp only at hp
        unfold dictGet at hget
        rw [if_pos hp] at hget
        exact (Option.some.inj hget).symm
      have hrest : degSum rest S = degSum rest (S ++ [u]) := by
        apply degSum_congr
        intro q hq
        have hqu : q.1 ≠ u := by
          intro he
          apply hnd.1
          rw [hp, ← he]
          exact List.mem_map_of_mem Prod.fst hq
        simp [List.mem_append, hqu]
      rw [if_neg (hp ▸ hS), if_pos (by simp [hp]), hrest, hl]
      ring
    · have hget' : dictGet rest u = some l := by
        rcases p with ⟨k, v⟩
        simp only at hp
        unfold dictGet at hget
        rwa [if_neg hp] at hget
      have hmem : (p.1 ∈ S ↔ p.1 ∈ S ++ [u]) := by simp [List.mem_append, hp]
      rw [ih hnd.2 hget']
      by_cases hpS : p.1 ∈ S
      · rw [if_pos hpS, if_pos (hmem.mp hpS)]
        ring
      · rw [if_neg hpS, if_neg (fun h' => hpS (hmem.mpr h'))]
        ring

theorem camino_nonneg {adj : List (String × List (String × Arista))} {origen : String}
    (hW : ArcosOK adj) {z : String} {p : List String} {w : ℚ}
    (h : Camino adj origen z p w) : 0 ≤ w := by
  induction h with
  | nil => exact le_refl 0
  | snoc b c p' w' e hc he ih => exact add_nonneg ih (hW b c e he).1

theorem camino_ne_nil {adj : List (String × List (String × Arista))} {origen z : String}
    {p : List String} {w : ℚ} (h : Camino adj origen z p w) : p ≠ [] := by
  induction h with
  | nil => simp
  | snoc b c p' w' e hc he ih => simp

theorem camino_head {adj : List (String × List (String × Arista))} {origen z : String}
    {p : List String} {w : ℚ} (h : Camino adj origen z p w) : ∃ t, p = origen :: t := by
  induction h with
  | nil => exact ⟨[], rfl⟩
  | snoc b c p' w' e hc he ih =>
    obtain ⟨t, ht⟩ := ih
    exact ⟨t ++ [c], by simp [ht]⟩

theorem camino_fin_mem {adj : List (String × List (String × Arista))} {origen z : String}
    {p : List String} {w : ℚ} (hW : ArcosOK adj) (h : Camino adj origen z p w) :
    z = origen ∨ z ∈ adj.map Prod.fst := by
  induction h with
  | nil => exact Or.inl rfl
  | snoc b c p' w' e hc he ih => exact Or.inr (hW b c e he).2

theorem relaxed_of_salvo {adj : List (String × List (String × Arista))} {S : List String}
    {dist : List (String × Option ℚ)} {u : String}
    (h : RelaxedSalvo adj S dist u []) : Relaxed adj S dist := by
  intro x hx dx hdx v e he
  rcases h x hx dx hdx v e he with ⟨_, h2⟩ | h2
  · exact absurd h2 (List.not_mem_nil _)
  · exact h2

theorem salvo_of_relaxed {adj : List (String × List (String × Arista))} {S : List String}
    {dist : List (String × Option ℚ)} (u : String) (l : List (String × Arista))
    (h : Relaxed adj S dist) : RelaxedSalvo adj S dist u l :=
  fun x hx dx hdx v e he => Or.inr (h x hx dx hdx v e he)

theorem relajar_noop (u : String) (duq : ℚ) :
    ∀ (l : List (String × Arista)) (dist : List (String × Option ℚ))
      (prev : List (String × Option String)) (pq : List (ℚ × String)),
    dictGet dist u = some (some duq) →
    (∀ q ∈ l, ∃ dv, dictGet dist (q : String × Arista).1 = some (some dv) ∧
       dv ≤ duq + q.2.dist) →
    relajar u l dist prev pq = some (dist, prev, pq) := by
  intro l
  induction l with
  | nil => intro dist prev pq _ _; rfl
  | cons q rest ih =>
    obtain ⟨v, e⟩ := q
    intro dist prev pq hdu hrel
    obtain ⟨dv, hdv, hle⟩ := hrel (v, e) (List.mem_cons_self _ _)
    have hlt : ltInf (duq + e.dist) (some dv) = false := by
      simp [ltInf, not_lt.mpr hle]
    have hstep : relajar u ((v, e) :: rest) dist prev pq = relajar u rest dist prev pq := by
      simp [relajar, hdu, hdv, hlt]
    rw [hstep]
    exact ih dist prev pq hdu (fun q hq => hrel q (List.mem_cons_of_mem _ hq))

theorem caminoA {adj : List (String × List (String × Arista))} {origen : String}
    {S : List String} {pq : List (ℚ × String)} {dist : List (String × Option ℚ)}
    {prev : List (String × Option String)} (hW : ArcosOK adj)
    (hInv : InvB adj origen S pq dist prev) (hRel : Relaxed adj S dist) :
    ∀ z p w, Camino adj origen z p w →
      (z ∈ S ∧ ∃ dz, dictGet dist z = some (some dz) ∧ dz ≤ w) ∨
      (∃ d y, (d, y) ∈ pq ∧ d ≤ w) := by
  intro z p w hcam
  induction hcam with
  | nil =>
    rcases hInv.origen_en with h | h
    · exact Or.inl ⟨h, 0, hInv.dist_origen, le_refl 0⟩
    · exact Or.inr ⟨0, origen, h, le_refl 0⟩
  | snoc b c p' w' e hc he ih =>
    have hedist : 0 ≤ e.dist := (hW b c e he).1
    rcases ih with ⟨hbS, db, hdb, hle⟩ | ⟨d, y, hmem, hle⟩
    · obtain ⟨dc, hdc, hdcle⟩ := hRel b hbS db hdb c e he
      by_cases hcS : c ∈ S
      · exact Or.inl ⟨hcS, dc, hdc, hdcle.trans (by linarith)⟩
      · exact Or.inr ⟨dc, c, hInv.fresh_pq c dc hcS hdc, hdcle.trans (by linarith)⟩
    · exact Or.inr ⟨d, y, hmem, hle.trans (by linarith)⟩

theorem relajar_inv {adj : List (String × List (String × Arista))} {origen u : String}
    (hW : ArcosOK adj) :
    ∀ (l : List (String × Arista)) (S : List String) (pq : List (ℚ × String))
      (dist : List (String × Option ℚ)) (prev : List (String × Option String)) (duq : ℚ),
    (∀ q ∈ l, dictGet2 adj u (q : String × Arista).1 = some q.2) →
    u ∈ S →
    dictGet dist u = some (some duq) →
    InvB adj origen S pq dist prev →
    RelaxedSalvo adj S dist u l →
    ∃ dist' prev' pq', relajar u l dist prev pq = some (dist', prev', pq') ∧
      InvB adj origen S pq' dist' prev' ∧
      RelaxedSalvo adj S dist' u [] ∧
      pq'.length ≤ pq.length + l.length := by
  intro l
  induction l with
  | nil =>
    intro S pq dist prev duq _ _ _ hInv hRel
    exact ⟨dist, prev, pq, rfl, hInv, hRel, by simp⟩
  | cons q rest ih =>
    obtain ⟨v, e⟩ := q
    intro S pq dist prev duq hl huS hdu hInv hRel
    have hedge : dictGet2 adj u v = some e := hl (v, e) (List.mem_cons_self _ _)
    have hv_mem : v ∈ adj.map Prod.fst := (hW u v e hedge).2
    have hedist : 0 ≤ e.dist := (hW u v e hedge).1
    obtain ⟨dv0, hdv0⟩ := dictGet_isSome_of_mem dist v (hInv.keys_dist ▸ hv_mem)
    have hl' : ∀ q ∈ rest, dictGet2 adj u (q : String × Arista).1 = some q.2 :=
      fun q hq => hl q (List.mem_cons_of_mem _ hq)
    rcases hb : ltInf (duq + e.dist) dv0 with _ | _
    · -- no update: the current tentative distance is already good enough
      have hdvq : ∃ dvq, dv0 = some dvq ∧ dvq ≤ duq + e.dist := by
        rcases dv0 with _ | dvq
        · simp [ltInf] at hb
        · refine ⟨dvq, rfl, not_lt.mp ?_⟩
          intro hcon
          simp [ltInf] at hb
          exact absurd hcon (not_lt.mpr hb)
      obtain ⟨dvq, hveq, hlev⟩ := hdvq
      rw [hveq] at hdv0 hb
      have hstep : relajar u ((v, e) :: rest) dist prev pq = relajar u rest dist prev pq := by
        simp [relajar, hdu, hdv0, hb]
      rw [hstep]
      have hRel' : RelaxedSalvo adj S dist u rest := by
        intro x hx dx hdx v' e' he'
        rcases hRel x hx dx hdx v' e' he' with ⟨hxu, hmem⟩ | hsat
        · rcases List.mem_cons.mp hmem with heq | hmem'
          · have hv' : v' = v := congrArg Prod.fst heq
            have he'' : e' = e := congrArg Prod.snd heq
            have hdx' : dx = duq := by
              rw [hxu, hdu] at hdx
              injection hdx with h1
              injection h1 with h2
              exact h2.symm
            refine Or.inr ⟨dvq, by rw [hv']; exact hdv0, ?_⟩
            rw [hdx', he'']
            exact hlev
          · exact Or.inl ⟨hxu, hmem'⟩
        · exact Or.inr hsat
      obtain ⟨dist', prev', pq', hrun, hI, hR, hlen⟩ :=
        ih S pq dist prev duq hl' huS hdu hInv hRel'
      exact ⟨dist', prev', pq', hrun, hI, hR, by
        rw [List.length_cons]
        omega⟩
    · -- update: relax the edge, push the new entry
      obtain ⟨pu, hpu⟩ := hInv.sound u duq hdu
      have hcam_v : Camino adj origen v (pu ++ [v]) (duq + e.dist) :=
        Camino.snoc u v pu duq e hpu hedge
      have hvS : v ∉ S := by
        intro hvS
        obtain ⟨dvq0, hdvq0⟩ := hInv.settled_fin v hvS
        have hminv := hInv.settled_min v hvS dvq0 hdvq0 (pu ++ [v]) (duq + e.dist) hcam_v
        rw [hdv0] at hdvq0
        injection hdvq0 with h0
        rw [h0] at hb
        have : duq + e.dist < dvq0 := by simpa [ltInf] using hb
        linarith
      have hvu : v ≠ u := by
        intro h
        rw [h, hdu] at hdv0
        injection hdv0 with h0
        rw [← h0] at hb
        have : duq + e.dist < duq := by simpa [ltInf] using hb
        linarith
      have hvo : v ≠ origen := by
        intro h
        rw [h, hInv.dist_origen] at hdv0
        injection hdv0 with h0
        rw [← h0] at hb
        have hneg : duq + e.dist < 0 := by simpa [ltInf] using hb
        have := camino_nonneg hW hcam_v
        linarith
      have hget_self : dictGet (dictSet dist v (some (duq + e.dist))) v =
          some (some (duq + e.dist)) := dictGet_dictSet_self dist v _
      have hget_ne : ∀ w, w ≠ v →
          dictGet (dictSet dist v (some (duq + e.dist))) w = dictGet dist w :=
        fun w hw => dictGet_dictSet_ne dist v w _ hw
      have hgetp_self : dictGet (dictSet prev v (some u)) v = some (some u) :=
        dictGet_dictSet_self prev v _
      have hgetp_ne : ∀ w, w ≠ v →
          dictGet (dictSet prev v (some u)) w = dictGet prev w :=
        fun w hw => dictGet_dictSet_ne prev v w _ hw
      have hdu₁ : dictGet (dictSet dist v (some (duq + e.dist))) u = some (some duq) := by
        rw [hget_ne u (Ne.symm hvu)]
        exact hdu
      have hInv₁ : InvB adj origen S (pq ++ [(duq + e.dist, v)])
          (dictSet dist v (some (duq + e.dist))) (dictSet prev v (some u)) := by
        refine ⟨?_, ?_, hInv.s_sub, hInv.s_nodup, ?_, ?_, ?_, ?_, ?_, ?_, ?_, ?_, ?_, ?_, ?_⟩
        · rw [keys_dictSet_of_mem dist v _ (by rw [hInv.keys_dist]; exact hv_mem)]
          exact hInv.keys_dist
        · rw [keys_dictSet_of_mem prev v _ (by rw [hInv.keys_prev]; exact hv_mem)]
          exact hInv.keys_prev
        · intro en hen
          rcases List.mem_append.mp hen with h | h
          · exact hInv.pq_mem en h
          · simp only [List.mem_singleton] at h
            rw [h]
            exact hv_mem
        · rw [hget_ne origen (Ne.symm hvo)]
          exact hInv.dist_origen
        · intro w dw hdw
          by_cases hwv : w = v
          · subst hwv
            rw [hget_self] at hdw
            injection hdw with h1
            injection h1 with h2
            exact ⟨pu ++ [w], h2 ▸ hcam_v⟩
          · rw [hget_ne w hwv] at hdw
            exact hInv.sound w dw hdw
        · intro d y hmem
          rcases List.mem_append.mp hmem with h | h
          · obtain ⟨dy, hdy, hle⟩ := hInv.pq_ge d y h
            by_cases hyv : y = v
            · subst hyv
              rw [hdv0] at hdy
              injection hdy with h1
              have hltq : duq + e.dist < dy := by
                rw [h1] at hb
                simpa [ltInf] using hb
              exact ⟨duq + e.dist, hget_self, (le_of_lt hltq).trans hle⟩
            · exact ⟨dy, by rw [hget_ne y hyv]; exact hdy, hle⟩
          · simp only [List.mem_singleton, Prod.mk.injEq] at h
            obtain ⟨h1, h2⟩ := h
            subst h1
            subst h2
            exact ⟨duq + e.dist, hget_self, le_refl _⟩
        · intro w dw hwS hdw
          by_cases hwv : w = v
          · subst hwv
            rw [hget_self] at hdw
            injection hdw with h1
            injection h1 with h2
            rw [← h2]
            exact List.mem_append.mpr (Or.inr (by simp))
          · rw [hget_ne w hwv] at hdw
            exact List.mem_append.mpr (Or.inl (hInv.fresh_pq w dw hwS hdw))
        · rcases hInv.origen_en with h | h
          · exact Or.inl h
          · exact Or.inr (List.mem_append.mpr (Or.inl h))
        · intro x hx
          have hxv : x ≠ v := fun h => hvS (h ▸ hx)
          obtain ⟨dx, hdx⟩ := hInv.settled_fin x hx
          exact ⟨dx, by rw [hget_ne x hxv]; exact hdx⟩
        · intro x hx dx hdx p w hcam
          have hxv : x ≠ v := fun h => hvS (h ▸ hx)
          rw [hget_ne x hxv] at hdx
          exact hInv.settled_min x hx dx hdx p w hcam
        · rw [hgetp_ne origen (Ne.symm hvo)]
          exact hInv.prev_origen
        · intro w hwo dw hdw
          by_cases hwv : w = v
          · subst hwv
            exact ⟨u, hgetp_self⟩
          · rw [hget_ne w hwv] at hdw
            obtain ⟨u', hu'⟩ := hInv.prev_fin w hwo dw hdw
            exact ⟨u', by rw [hgetp_ne w hwv]; exact hu'⟩
        · intro w u₀ hw
          by_cases hwv : w = v
          · subst hwv
            rw [hgetp_self] at hw
            injection hw with h1
            injection h1 with h2
            subst h2
            exact ⟨e, duq, duq + e.dist, hedge, hdu₁, hget_self, rfl, huS,
              fun hvS' => absurd hvS' hvS⟩
          · rw [hgetp_ne w hwv] at hw
            obtain ⟨e₀, du₀, dw₀, he₀, hdu₀, hdw₀, heq₀, hu₀S, hrank₀⟩ :=
              hInv.prev_chain w u₀ hw
            have hu₀v : u₀ ≠ v := fun h => hvS (h ▸ hu₀S)
            exact ⟨e₀, du₀, dw₀, he₀, by rw [hget_ne u₀ hu₀v]; exact hdu₀,
              by rw [hget_ne w hwv]; exact hdw₀, heq₀, hu₀S, hrank₀⟩
      have hRel₁ : RelaxedSalvo adj S (dictSet dist v (some (duq + e.dist))) u rest := by
        intro x hx dx hdx v' e' he'
        have hxv : x ≠ v := fun h => hvS (h ▸ hx)
        rw [hget_ne x hxv] at hdx
        rcases hRel x hx dx hdx v' e' he' with ⟨hxu, hmem⟩ | ⟨dv', hdv', hle'⟩
        · rcases List.mem_cons.mp hmem with heq | hmem'
          · have hv' : v' = v := congrArg Prod.fst heq
            have he'' : e' = e := congrArg Prod.snd heq
            have hdx' : dx = duq := by
              rw [hxu, hdu] at hdx
              injection hdx with h1
              injection h1 with h2
              exact h2.symm
            refine Or.inr ⟨duq + e.dist, by rw [hv']; exact hget_self, ?_⟩
            rw [hdx', he'']
          · exact Or.inl ⟨hxu, hmem'⟩
        · right
          by_cases hv'v : v' = v
          · subst hv'v
            rw [hdv0] at hdv'
            injection hdv' with h1
            have hltq : duq + e.dist < dv' := by
              rw [h1] at hb
              simpa [ltInf] using hb
            exact ⟨duq + e.dist, hget_self, (le_of_lt hltq).trans hle'⟩
          · exact ⟨dv', by rw [hget_ne v' hv'v]; exact hdv', hle'⟩
      have hstep : relajar u ((v, e) :: rest) dist prev pq =
          relajar u rest (dictSet dist v (some (duq + e.dist)))
            (dictSet prev v (some u)) (pq ++ [(duq + e.dist, v)]) := by
        simp only [relajar, hdu, hdv0, hb, if_true]
      rw [hstep]
      obtain ⟨dist', prev', pq', hrun, hI, hR, hlen⟩ :=
        ih S (pq ++ [(duq + e.dist, v)]) (dictSet dist v (some (duq + e.dist)))
          (dictSet prev v (some u)) duq hl' huS hdu₁ hInv₁ hRel₁
      refine ⟨dist', prev', pq', hrun, hI, hR, ?_⟩
      simp only [List.length_append, List.length_cons, List.length_nil] at hlen ⊢
      omega

theorem bucle_optimo {adj : List (String × List (String × Arista))}
    {origen destino : String} (hW : ArcosOK adj)
    (hnd1 : (adj.map Prod.fst).Nodup)
    (hnd2 : ∀ p ∈ adj, ((p : String × List (String × Arista)).2.map Prod.fst).Nodup) :
    ∀ (fuel : ℕ) (S : List String) (pq : List (ℚ × String))
      (dist : List (String × Option ℚ)) (prev : List (String × Option String)),
    InvB adj origen S pq dist prev →
    Relaxed adj S dist →
    pq.length + degSum adj S ≤ fuel →
    ∃ S' pq' dist' prev',
      dijkstra_loop adj destino fuel pq dist prev = SalidaBucle.done dist' prev' ∧
      InvB adj origen S' pq' dist' prev' ∧
      (∀ p w, Camino adj origen destino p w →
        ∃ dd, dictGet dist' destino = some (some dd) ∧ dd ≤ w) := by
  intro fuel
  induction fuel with
  | zero =>
    intro S pq dist prev hInv hRel hfuel
    have hpq : pq = [] := List.length_eq_zero.mp (by omega)
    subst hpq
    refine ⟨S, [], dist, prev, by simp [dijkstra_loop, popMin], hInv, ?_⟩
    intro p w hcam
    rcases caminoA hW hInv hRel destino p w hcam with ⟨_, dd, hdd, hle⟩ | ⟨d, y, hmem, _⟩
    · exact ⟨dd, hdd, hle⟩
    · simp at hmem
  | succ n ih =>
    intro S pq dist prev hInv hRel hfuel
    rcases hp : popMin pq with _ | ⟨⟨d, u⟩, pq₁⟩
    · have hpq : pq = [] := popMin_eq_none.mp hp
      subst hpq
      refine ⟨S, [], dist, prev, by simp only [dijkstra_loop, hp], hInv, ?_⟩
      intro p w hcam
      rcases caminoA hW hInv hRel destino p w hcam with ⟨_, dd, hdd, hle⟩ | ⟨d, y, hmem, _⟩
      · exact ⟨dd, hdd, hle⟩
      · simp at hmem
    · have hu_mem : u ∈ adj.map Prod.fst := hInv.pq_mem (d, u) (popMin_mem hp)
      have hlen_pq : pq.length = pq₁.length + 1 := popMin_length hp
      by_cases hud : u = destino
      · refine ⟨S, pq, dist, prev, by simp only [dijkstra_loop, hp, hud, if_true], hInv, ?_⟩
        intro p w hcam
        rcases caminoA hW hInv hRel destino p w hcam with ⟨_, dd, hdd, hle⟩ |
          ⟨d', y, hmem, hle⟩
        · exact ⟨dd, hdd, hle⟩
        · have hdle : d ≤ d' := pqLe_key _ _ (popMin_min hp (d', y) hmem)
          obtain ⟨dy, hdy, hdyle⟩ := hInv.pq_ge d u (popMin_mem hp)
          exact ⟨dy, by rw [← hud]; exact hdy, by linarith⟩
      · obtain ⟨du0, hdu0⟩ := dictGet_isSome_of_mem dist u (hInv.keys_dist ▸ hu_mem)
        by_cases hst : some d = du0
        · have hdu : dictGet dist u = some (some d) := by rw [hdu0, ← hst]
          obtain ⟨l, hl⟩ := dictGet_isSome_of_mem adj u hu_mem
          have hlnd : (l.map Prod.fst).Nodup := hnd2 (u, l) (dictGet_mem hl)
          have hl_edges : ∀ q ∈ l, dictGet2 adj u (q : String × Arista).1 = some q.2 := by
            intro q hq
            obtain ⟨qa, qb⟩ := q
            rw [dictGet2_eq_row hl]
            exact mem_dictGet hlnd hq
          by_cases huS : u ∈ S
          · have hnoop : relajar u l dist prev pq₁ = some (dist, prev, pq₁) := by
              apply relajar_noop u d l dist prev pq₁ hdu
              intro q hq
              exact hRel u huS d hdu q.1 q.2 (hl_edges q hq)
            have hstep : dijkstra_loop adj destino (n + 1) pq dist prev =
                dijkstra_loop adj destino n pq₁ dist prev := by
              simp only [dijkstra_loop, hp, hud, if_false, hdu0, hst, if_true, hl, hnoop]
            rw [hstep]
            refine ih S pq₁ dist prev ?_ hRel (by omega)
            refine ⟨hInv.keys_dist, hInv.keys_prev, hInv.s_sub, hInv.s_nodup,
              fun en hen => hInv.pq_mem en (popMin_rest_subset hp en hen),
              hInv.dist_origen, hInv.sound,
              fun d' y h => hInv.pq_ge d' y (popMin_rest_subset hp _ h),
              ?_, ?_, hInv.settled_fin, hInv.settled_min, hInv.prev_origen, hInv.prev_fin,
              hInv.prev_chain⟩
            · intro v dv hvS hdv
              refine popMin_mem_rest_of_ne hp (hInv.fresh_pq v dv hvS hdv) ?_
              intro hcon
              have hveq : v = u := congrArg Prod.snd hcon
              exact hvS (hveq ▸ huS)
            · rcases hInv.origen_en with h | h
              · exact Or.inl h
              · by_cases ho : ((0 : ℚ), origen) = (d, u)
                · have h1 : origen = u := congrArg Prod.snd ho
                  exact Or.inl (h1 ▸ huS)
                · exact Or.inr (popMin_mem_rest_of_ne hp h ho)
          · have hmin_u : ∀ p w, Camino adj origen u p w → d ≤ w := by
              intro p w hcam
              rcases caminoA hW hInv hRel u p w hcam with ⟨huS', _⟩ | ⟨d', y, hmem, hle⟩
              · exact absurd huS' huS
              · have := pqLe_key _ _ (popMin_min hp (d', y) hmem)
                linarith
            have hSsub' : ∀ x ∈ S ++ [u], x ∈ adj.map Prod.fst := by
              intro x hx
              rcases List.mem_append.mp hx with h | h
              · exact hInv.s_sub x h
              · simp only [List.mem_singleton] at h
                rw [h]
                exact hu_mem
            have hSnodup' : (S ++ [u]).Nodup := by
              rw [List.nodup_append]
              refine ⟨hInv.s_nodup, List.nodup_singleton u, ?_⟩
              intro a ha hb
              simp only [List.mem_singleton] at hb
              exact huS (hb ▸ ha)
            have hInv₂ : InvB adj origen (S ++ [u]) pq₁ dist prev := by
              refine ⟨hInv.keys_dist, hInv.keys_prev, hSsub', hSnodup',
                fun en hen => hInv.pq_mem en (popMin_rest_subset hp en hen),
                hInv.dist_origen, hInv.sound,
                fun d' y h => hInv.pq_ge d' y (popMin_rest_subset hp _ h),
                ?_, ?_, ?_, ?_, hInv.prev_origen, hInv.prev_fin, ?_⟩
              · intro v dv hvS hdv
                have hvS0 : v ∉ S := fun h => hvS (List.mem_append.mpr (Or.inl h))
                have hvu : v ≠ u := by
                  intro h
                  exact hvS (List.mem_append.mpr (Or.inr (by simp [h])))
                refine popMin_mem_rest_of_ne hp (hInv.fresh_pq v dv hvS0 hdv) ?_
                intro hcon
                exact hvu (congrArg Prod.snd hcon)
              · rcases hInv.origen_en with h | h
                · exact Or.inl (List.mem_append.mpr (Or.inl h))
                · by_cases ho : ((0 : ℚ), origen) = (d, u)
                  · have h1 : origen = u := congrArg Prod.snd ho
                    exact Or.inl (List.mem_append.mpr (Or.inr (by simp [h1])))
                  · exact Or.inr (popMin_mem_rest_of_ne hp h ho)
              · intro x hx
                rcases List.mem_append.mp hx with h | h
                · exact hInv.settled_fin x h
                · simp only [List.mem_singleton] at h
                  subst h
                  exact ⟨d, hdu⟩
              · intro x hx dx hdx p w hcam
                rcases List.mem_append.mp hx with h | h
                · exact hInv.settled_min x h dx hdx p w hcam
                · simp only [List.mem_singleton] at h
                  subst h
                  rw [hdu] at hdx
                  injection hdx with h1
                  injection h1 with h2
                  rw [← h2]
                  exact hmin_u p w hcam
              · intro v u₀ hv
                obtain ⟨e₀, du₀, dv₀, he₀, hdu₀, hdv₀, heq₀, hu₀S, hrank₀⟩ :=
                  hInv.prev_chain v u₀ hv
                refine ⟨e₀, du₀, dv₀, he₀, hdu₀, hdv₀, heq₀,
                  List.mem_append.mpr (Or.inl hu₀S), ?_⟩
                intro hvS'
                rcases List.mem_append.mp hvS' with h | h
                · rw [rankOr_append_of_mem [u] hu₀S, rankOr_append_of_mem [u] h]
                  exact hrank₀ h
                · simp only [List.mem_singleton] at h
                  rw [h, rankOr_append_of_mem [u] hu₀S, rankOr_append_self huS]
                  exact rankOr_lt_length hu₀S
            have hRel₂ : RelaxedSalvo adj (S ++ [u]) dist u l := by
              intro x hx dx hdx v e he
              rcases List.mem_append.mp hx with h | h
              · exact Or.inr (hRel x h dx hdx v e he)
              · simp only [List.mem_singleton] at h
                subst h
                left
                refine ⟨rfl, ?_⟩
                rw [dictGet2_eq_row hl] at he
                exact dictGet_mem he
            obtain ⟨dist', prev', pq'', hrun, hI, hR, hlen⟩ :=
              relajar_inv hW l (S ++ [u]) pq₁ dist prev d hl_edges
                (List.mem_append.mpr (Or.inr (by simp))) hdu hInv₂ hRel₂
            have hstep : dijkstra_loop adj destino (n + 1) pq dist prev =
                dijkstra_loop adj destino n pq'' dist' prev' := by
              simp only [dijkstra_loop, hp, hud, if_false, hdu0, hst, if_true, hl, hrun]
            rw [hstep]
            refine ih (S ++ [u]) pq'' dist' prev' hI (relaxed_of_salvo hR) ?_
            have hdeg : degSum adj S = degSum adj (S ++ [u]) + l.length :=
              degSum_settle adj u l S hnd1 hl huS
            omega
        · have hstep : dijkstra_loop adj destino (n + 1) pq dist prev =
              dijkstra_loop adj destino n pq₁ dist prev := by
            simp only [dijkstra_loop, hp, hud, if_false, hdu0, hst, if_false]
          rw [hstep]
          refine ih S pq₁ dist prev ?_ hRel (by omega)
          refine ⟨hInv.keys_dist, hInv.keys_prev, hInv.s_sub, hInv.s_nodup,
            fun en hen => hInv.pq_mem en (popMin_rest_subset hp en hen),
            hInv.dist_origen, hInv.sound,
            fun d' y h => hInv.pq_ge d' y (popMin_rest_subset hp _ h),
            ?_, ?_, hInv.settled_fin, hInv.settled_min, hInv.prev_origen, hInv.prev_fin,
            hInv.prev_chain⟩
          · intro v dv hvS hdv
            refine popMin_mem_rest_of_ne hp (hInv.fresh_pq v dv hvS hdv) ?_
            intro hcon
            apply hst
            have hveq : v = u := congrArg Prod.snd hcon
            have hdeq : dv = d := congrArg Prod.fst hcon
            rw [hveq, hdu0] at hdv
            injection hdv with h1
            rw [h1, hdeq]
          · rcases hInv.origen_en with h | h
            · exact Or.inl h
            · by_cases ho : ((0 : ℚ), origen) = (d, u)
              · exfalso
                apply hst
                have h1 : origen = u := congrArg Prod.snd ho
                have h2 : (0 : ℚ) = d := congrArg Prod.fst ho
                have h3 := hInv.dist_origen
                rw [h1, hdu0] at h3
                injection h3 with h4
                rw [h4, ← h2]
              · exact Or.inr (popMin_mem_rest_of_ne hp h ho)

theorem reconstruir_none (prev : List (String × Option String)) (n : ℕ) :
    reconstruir prev n none = SalidaRecon.done [] := by
  cases n <;> rfl

theorem recon_camino {adj : List (String × List (String × Arista))} {origen : String}
    {S : List String} {dist : List (String × Option ℚ)}
    {prev : List (String × Option String)}
    (hkeys : dist.map Prod.fst = adj.map Prod.fst)
    (hnames : ∀ x ∈ adj.map Prod.fst, x ≠ "")
    (hdo : dictGet dist origen = some (some 0))
    (hpo : dictGet prev origen = some none)
    (hpf : ∀ v, v ≠ origen → ∀ dv, dictGet dist v = some (some dv) →
       ∃ u, dictGet prev v = some (some u))
    (hpc : ∀ v u, dictGet prev v = some (some u) →
       ∃ e du dv, dictGet2 adj u v = some e ∧ dictGet dist u = some (some du) ∧
         dictGet dist v = some (some dv) ∧ dv = du + e.dist ∧ u ∈ S ∧
         (v ∈ S → rankOr S u < rankOr S v)) :
    ∀ (n : ℕ) (v : String) (dv : ℚ), dictGet dist v = some (some dv) →
      (if v ∈ S then rankOr S v else S.length) < n →
      ∃ L, reconstruir prev n (some v) = SalidaRecon.done L ∧
        Camino adj origen v L.reverse dv := by
  intro n
  induction n with
  | zero =>
    intro v dv _ hm
    split at hm <;> omega
  | succ k ih =>
    intro v dv hdv hm
    have hv_mem : v ∈ adj.map Prod.fst := by
      rw [← hkeys]
      exact mem_keys_of_dictGet hdv
    have hvne : ¬v = "" := hnames v hv_mem
    by_cases hvo : v = origen
    · subst hvo
      have hdv0 : dv = 0 := by
        rw [hdo] at hdv
        injection hdv with h1
        injection h1 with h2
        exact h2.symm
      have hstep : reconstruir prev (k + 1) (some v) = SalidaRecon.done [v] := by
        simp only [reconstruir, hvne, if_false, hpo, reconstruir_none]
      refine ⟨[v], hstep, ?_⟩
      rw [hdv0]
      simpa using Camino.nil
    · obtain ⟨u, hu⟩ := hpf v hvo dv hdv
      obtain ⟨e, du, dv', he, hdu, hdv', heq, huS, hrank⟩ := hpc v u hu
      have hdveq : dv' = dv := by
        rw [hdv] at hdv'
        injection hdv' with h1
        injection h1 with h2
        exact h2.symm
      have hmu : (if u ∈ S then rankOr S u else S.length) < k := by
        rw [if_pos huS]
        by_cases hvS : v ∈ S
        · rw [if_pos hvS] at hm
          have := hrank hvS
          omega
        · rw [if_neg hvS] at hm
          have := rankOr_lt_length huS
          omega
      obtain ⟨L, hL, hcamL⟩ := ih u du hdu hmu
      refine ⟨v :: L, ?_, ?_⟩
      · have hstep : reconstruir prev (k + 1) (some v) =
            match reconstruir prev k (some u) with
            | SalidaRecon.done camino => SalidaRecon.done (v :: camino)
            | r => r := by
          simp only [reconstruir, hvne, if_false, hu]
        rw [hstep, hL]
      · have hsnoc := Camino.snoc u v L.reverse du e hcamL he
        have hdw : dv = du + e.dist := by
          rw [← hdveq]
          exact heq
        rw [hdw]
        simpa using hsnoc

theorem ruta_optima (g : Graph) (origen destino : String) (fuel : ℕ)
    (hWF : GrafoWF g) (hnames : ∀ x ∈ g.aristas.map Prod.fst, x ≠ "")
    (ho : origen ∈ g.aristas.map Prod.fst)
    (hconn : ∃ p w, Camino g.aristas origen destino p w)
    (hfuel : fuelBound g ≤ fuel) :
    ∃ p w, ruta_mas_corta g fuel origen destino = ResultadoRuta.ruta p w ∧
      Camino g.aristas origen destino p w ∧
      (∀ p' w', Camino g.aristas origen destino p' w' → w ≤ w') := by
  obtain ⟨hnd1, hWF2⟩ := hWF
  have hW : ArcosOK g.aristas := by
    intro a v e he
    rcases hga : dictGet g.aristas a with _ | l
    · rw [dictGet2, hga] at he
      cases he
    · rw [dictGet2_eq_row hga] at he
      have hq := dictGet_mem he
      have hmem := dictGet_mem hga
      have hcl := (hWF2 (a, l) hmem).2 (v, e) hq
      exact ⟨hcl.2, hcl.1⟩
  have hnd2 : ∀ p ∈ g.aristas,
      ((p : String × List (String × Arista)).2.map Prod.fst).Nodup :=
    fun p hp => (hWF2 p hp).1
  have hchar : ∀ v dv,
      dictGet (dictSet (g.aristas.map (fun p => (p.1, (none : Option ℚ))))
        origen (some 0)) v = some (some dv) → v = origen ∧ dv = 0 := by
    intro v dv h
    by_cases hv : v = origen
    · subst hv
      rw [dictGet_dictSet_self] at h
      injection h with h1
      injection h1 with h2
      exact ⟨rfl, h2.symm⟩
    · rw [dictGet_dictSet_ne _ _ _ _ hv,
        dictGet_map_snd g.aristas (fun _ _ => (none : Option ℚ)) v] at h
      rcases hg : dictGet g.aristas v with _ | l <;> rw [hg] at h <;> simp at h
  have hInv₀ : InvB g.aristas origen [] [(0, origen)]
      (dictSet (g.aristas.map (fun p => (p.1, (none : Option ℚ)))) origen (some 0))
      (g.aristas.map (fun p => (p.1, (none : Option String)))) := by
    refine ⟨?_, keys_map_const g.aristas none, by simp, List.nodup_nil, ?_, ?_, ?_, ?_, ?_,
      Or.inr (by simp), by simp, by simp, ?_, ?_, ?_⟩
    · rw [keys_dictSet_of_mem _ _ _ (by rw [keys_map_const]; exact ho), keys_map_const]
    · intro en hen
      simp only [List.mem_singleton] at hen
      rw [hen]
      exact ho
    · exact dictGet_dictSet_self _ _ _
    · intro v dv h
      obtain ⟨hv, hdv⟩ := hchar v dv h
      subst hv
      exact ⟨[v], hdv ▸ Camino.nil⟩
    · intro d y h
      simp only [List.mem_singleton, Prod.mk.injEq] at h
      obtain ⟨h1, h2⟩ := h
      subst h1
      subst h2
      exact ⟨0, dictGet_dictSet_self _ _ _, le_refl 0⟩
    · intro v dv _ h
      obtain ⟨hv, hdv⟩ := hchar v dv h
      subst hv
      subst hdv
      simp
    · obtain ⟨l, hl⟩ := dictGet_isSome_of_mem g.aristas origen ho
      rw [dictGet_map_snd g.aristas (fun _ _ => (none : Option String)) origen, hl]
      rfl
    · intro v hvo dv h
      exact absurd (hchar v dv h).1 hvo
    · intro v u h
      rw [dictGet_map_snd g.aristas (fun _ _ => (none : Option String)) v] at h
      rcases hg : dictGet g.aristas v with _ | l <;> rw [hg] at h <;> simp at h
  have hRel₀ : Relaxed g.aristas []
      (dictSet (g.aristas.map (fun p => (p.1, (none : Option ℚ)))) origen (some 0)) := by
    intro x hx
    simp at hx
  have hmeas : (1 : ℕ) + degSum g.aristas [] ≤ fuel := by
    unfold fuelBound at hfuel
    omega
  obtain ⟨S', pq', dist', prev', hloop, hI, hopt⟩ :=
    bucle_optimo hW hnd1 hnd2 fuel [] [(0, origen)]
      (dictSet (g.aristas.map (fun p => (p.1, (none : Option ℚ)))) origen (some 0))
      (g.aristas.map (fun p => (p.1, (none : Option String)))) hInv₀ hRel₀
      (by simpa using hmeas)
  obtain ⟨p₀, w₀, hcam₀⟩ := hconn
  obtain ⟨dd, hdd, hddle⟩ := hopt p₀ w₀ hcam₀
  have hmin : ∀ p' w', Camino g.aristas origen destino p' w' → dd ≤ w' := by
    intro p' w' h
    obtain ⟨dd', hdd', hle'⟩ := hopt p' w' h
    rw [hdd] at hdd'
    injection hdd' with h1
    injection h1 with h2
    rw [h2]
    exact hle'
  have hSlen : S'.length ≤ g.aristas.length := by
    have hsub : S' ⊆ g.aristas.map Prod.fst := fun x hx => hI.s_sub x hx
    have hle := (List.subperm_of_subset hI.s_nodup hsub).length_le
    simpa using hle
  have hlenfuel : g.aristas.length < fuel := by
    unfold fuelBound at hfuel
    omega
  have hmrec : (if destino ∈ S' then rankOr S' destino else S'.length) < fuel := by
    by_cases hd : destino ∈ S'
    · rw [if_pos hd]
      have := rankOr_lt_length hd
      omega
    · rw [if_neg hd]
      omega
  obtain ⟨L, hrec, hcamL⟩ := recon_camino hI.keys_dist hnames hI.dist_origen
    hI.prev_origen hI.prev_fin hI.prev_chain fuel destino dd hdd hmrec
  refine ⟨L.reverse, dd, ?_, hcamL, hmin⟩
  simp only [ruta_mas_corta, hloop, hdd, hrec]

/-- C1: for every well-formed finished graph all of whose station names are
nonempty, and every origin present in the graph with a destination connected
to it by some walk, the solver (with enough fuel) returns a walk from origin
to destination whose total `dist`-weight is minimal among all connecting
walks — the early destination break does not change this; and on the concrete
graph with a direct 50 km A-C edge beside the 25+15 km A-B-C alternative it
returns the 40 km path A-B-C.  (The nonempty-name hypothesis is needed: see
the counterexample, where the reconstruction loop's Python truthiness makes
the solver return a non-path.) -/
theorem C1_ruta_mas_corta_optima :
    (∀ (g : Graph) (origen destino : String) (fuel : ℕ),
       GrafoWF g → (∀ x ∈ g.aristas.map Prod.fst, x ≠ "") →
       origen ∈ g.aristas.map Prod.fst →
       (∃ p w, Camino g.aristas origen destino p w) →
       fuelBound g ≤ fuel →
       ∃ p w, ruta_mas_corta g fuel origen destino = ResultadoRuta.ruta p w ∧
         Camino g.aristas origen destino p w ∧
         (∀ p' w', Camino g.aristas origen destino p' w' → w ≤ w')) ∧
    ruta_mas_corta g5040 20 "A" "C" = ResultadoRuta.ruta ["A", "B", "C"] 40 :=
  ⟨ruta_optima, by
    norm_num +decide [ruta_mas_corta, dijkstra_loop, relajar, popMin, pqLe,
      ltInf, reconstruir, dictGet, dictSet, dictGet2, pyStrLt, pyStrLtAux, g5040]⟩

/-- C1 counterexample: in the finished graph holding a station named `""` (a
blank CSV name field with valid coordinates) joined to `A` by a 7 km edge, the
query from `""` to `A` — both stations present and connected — returns `["A"]`,
which is not a walk from the origin: `while x:` in the reconstruction treats
the empty string like `None`.  The unqualified claim is therefore false. -/
theorem C1_contraejemplo :
    ruta_mas_corta gVac 8 "" "A" = ResultadoRuta.ruta ["A"] 7 ∧
    Camino gVac.aristas "" "A" ["", "A"] 7 ∧
    (∀ w, ¬ Camino gVac.aristas "" "A" ["A"] w) := by
  refine ⟨?_, ?_, ?_⟩
  · norm_num +decide [ruta_mas_corta, dijkstra_loop, relajar, popMin, pqLe,
      ltInf, reconstruir, dictGet, dictSet, dictGet2, pyStrLt, pyStrLtAux, gVac]
  · have h : Camino gVac.aristas "" "A" ([""] ++ ["A"]) (0 + 7) :=
      Camino.snoc "" "A" [""] 0 ⟨7, none⟩ Camino.nil (by decide)
    simpa using h
  · intro w hw
    obtain ⟨t, ht⟩ := camino_head hw
    injection ht with h1
    exact absurd h1 (by decide)

/-- C1 witness: the general optimality statement applied to the 50/40 graph
with fuel 20, all hypotheses discharged concretely. -/
theorem C1_testigo :
    (GrafoWF g5040 ∧ (∀ x ∈ g5040.aristas.map Prod.fst, x ≠ "") ∧
     "A" ∈ g5040.aristas.map Prod.fst ∧
     (∃ p w, Camino g5040.aristas "A" "C" p w) ∧ fuelBound g5040 ≤ 20) ∧
    ∃ p w, ruta_mas_corta g5040 20 "A" "C" = ResultadoRuta.ruta p w ∧
      Camino g5040.aristas "A" "C" p w ∧
      (∀ p' w', Camino g5040.aristas "A" "C" p' w' → w ≤ w') := by
  have hWF : GrafoWF g5040 := by decide
  have hnames : ∀ x ∈ g5040.aristas.map Prod.fst, x ≠ "" := by decide
  have hA : "A" ∈ g5040.aristas.map Prod.fst := by decide
  have hconn : ∃ p w, Camino g5040.aristas "A" "C" p w :=
    ⟨["A", "C"], 0 + 50,
     show Camino g5040.aristas "A" "C" (["A"] ++ ["C"]) (0 + 50) from
       Camino.snoc "A" "C" ["A"] 0 ⟨50, none⟩ Camino.nil (by decide)⟩
  have hfuel : fuelBound g5040 ≤ 20 := by decide
  exact ⟨⟨hWF, hnames, hA, hconn, hfuel⟩,
    C1_ruta_mas_corta_optima.1 g5040 "A" "C" 20 hWF hnames hA hconn hfuel⟩
